import Mathlib

/-!
Verification of the Nyrakai phonological validation engine
(repository CodaCrew-Code-Labs/Nyrakai, files src/tools/validator.py and
src/tools/sentence-validator.py).

Strings are modelled as lists of Unicode characters (`Str`), and every
Python function relevant to the claims is translated into an executable
Lean definition operating on `Str`.

Encoding note: the copy of validator.py in this snapshot is stored with a
double encoding (its UTF-8 bytes were decoded as Mac-Roman and re-encoded),
while sentence-validator.py is stored as plain UTF-8.  The definitions
below use the original single codepoints (for example U+0101 for the long
vowel that appears in the damaged file as the two characters U+0192 U+00C5),
which is the alphabet the program was written against; the file itself
writes the combining macron as the escape sequence backslash-u0304, which
only matches that decoding.  The decoding is the unique one that makes
validator.py consistent with sentence-validator.py and with its own
comments.

Python dictionaries keep insertion order, and Python sorts are stable;
both facts matter below and are modelled by keeping the source's insertion
order in list literals and by using a stable insertion sort.
-/

namespace Nyrakai

/-- A string, modelled as the list of its Unicode codepoints. -/
abbrev Str := List Char

/-- A phoneme token produced by the tokenizer (a short string in the source). -/
abbrev Tok := List Char

/-- The apostrophe character, the glottal marker of validator.py. -/
def glottal : Char := Char.ofNat 39

/-- The combining macron U+0304 used by the long-diphthong tokens. -/
def macron : Char := Char.ofNat 0x304

/-- Python str.lower, restricted to ASCII letters and the uppercase forms of
the special letters of the Nyrakai alphabet; every other character is left
unchanged, exactly as Python leaves unmapped characters unchanged. -/
def lowerPairs : List (Char × Char) :=
  [('A', 'a'), ('B', 'b'), ('C', 'c'), ('D', 'd'), ('E', 'e'), ('F', 'f'),
   ('G', 'g'), ('H', 'h'), ('I', 'i'), ('J', 'j'), ('K', 'k'), ('L', 'l'),
   ('M', 'm'), ('N', 'n'), ('O', 'o'), ('P', 'p'), ('Q', 'q'), ('R', 'r'),
   ('S', 's'), ('T', 't'), ('U', 'u'), ('V', 'v'), ('W', 'w'), ('X', 'x'),
   ('Y', 'y'), ('Z', 'z'),
   ('Ā', 'ā'), ('Ē', 'ē'), ('Ī', 'ī'), ('Ō', 'ō'), ('Ū', 'ū'),
   ('Æ', 'æ'), ('Œ', 'œ'), ('Ñ', 'ñ'), ('Š', 'š'), ('Ŧ', 'ŧ'),
   ('Ƶ', 'ƶ'), ('Ț', 'ț'), ('Ǣ', 'ǣ'), ('Ɛ', 'ɛ'), ('Ə', 'ə'),
   ('Ƨ', 'ƨ'), ('Ɒ', 'ɒ')]

/-- Lowercase one character (model of Python str.lower per character). -/
def pyLower (c : Char) : Char :=
  (((lowerPairs.find? (fun p => p.1 == c)).map Prod.snd).getD c)

/-- Lowercase a string. -/
def lowerStr (s : Str) : Str := s.map pyLower

-- ===========================================================================
-- Alphabet of validator.py (module-level constants)
-- ===========================================================================

/-- CONSONANTS of validator.py. -/
def CONSONANTS : List Char :=
  ['d', 'f', 'g', 'h', 'k', 'l', 'm', 'n', 'ñ', 'p', 'r', 's', 't', 'ț', 'z']

/-- VOWELS_SHORT of validator.py. -/
def VOWELS_SHORT : List Char := ['a', 'e', 'i', 'o', 'u']

/-- VOWELS_LONG of validator.py. -/
def VOWELS_LONG : List Char := ['ā', 'ē', 'ī', 'ō', 'ū']

/-- GLIDES of validator.py. -/
def GLIDES : List Char := ['w', 'y']

/-- EJECTIVES of validator.py: the two-character strings k^, p^, t^. -/
def EJECTIVES : List Tok := [['k', '^'], ['p', '^'], ['t', '^']]

/-- AFFRICATES of validator.py (single internal symbols for ts, tch, dz, tr). -/
def AFFRICATES : List Char := ['ƨ', 'š', 'ƶ', 'ŧ']

/-- DIPHTHONGS_SHORT of validator.py (ai, au, ei, eu, oi). -/
def DIPHTHONGS_SHORT : List Char := ['æ', 'ɒ', 'ɛ', 'ə', 'œ']

/-- The precomposed long diphthong of DIPHTHONGS_LONG. -/
def DIPHTHONG_LONG_PRECOMPOSED : Char := 'ǣ'

/-- DIPHTHONGS_LONG_COMBINING of validator.py: base symbol + combining macron. -/
def DIPHTHONGS_LONG_COMBINING : List Tok :=
  [['ɒ', macron], ['ɛ', macron], ['ə', macron], ['œ', macron]]

/-- The single-character members of the set ALL_VOWELS.  A one-character
Python string can only be a member of the one-character elements of that
set, which is what the tokenizer's membership test on word[i+1] sees. -/
def allVowelChars : List Char :=
  VOWELS_SHORT ++ VOWELS_LONG ++ DIPHTHONGS_SHORT ++ [DIPHTHONG_LONG_PRECOMPOSED]

/-- ALL_VOWELS of validator.py, as a set of phoneme strings (the
single-character vowels together with the two-character combining
diphthongs). -/
def ALL_VOWELS : List Tok :=
  allVowelChars.map (fun c => [c]) ++ DIPHTHONGS_LONG_COMBINING

/-- The consonant-class tokens: CONSONANTS, GLIDES, AFFRICATES and the
two-character EJECTIVES (the membership tests of is_consonant). -/
def consonantToks : List Tok :=
  (CONSONANTS ++ GLIDES ++ AFFRICATES).map (fun c => [c]) ++ EJECTIVES

/-- ONSET_C2_EXCLUDED of validator.py. -/
def ONSET_C2_EXCLUDED : List Tok :=
  [['p', glottal], ['k', glottal], ['t', glottal], ['š'], ['ƨ'], ['ñ']]

/-- VALID_CLUSTERS of validator.py: permitted second consonants per first. -/
def VALID_CLUSTERS : List (Char × List Char) :=
  [('d', ['r', 'w']),
   ('g', ['r', 'l', 'w']),
   ('h', ['r']),
   ('k', ['r', 'l', 'w']),
   ('p', ['r', 'l']),
   ('t', ['r', 'w']),
   ('s', ['r', 'l', 'w', 'n', 'm', 'k', 'p', 't']),
   ('z', ['r', 'w', 'l']),
   ('f', ['r', 'l']),
   ('ŧ', ['r', 'w']),
   ('ƶ', ['r', 'w']),
   ('ț', ['r'])]

-- ===========================================================================
-- Normalizer (validator.py normalize)
-- ===========================================================================

/-- AFFRICATE_MAP of validator.py, in source (insertion) order. -/
def AFFRICATE_MAP : List (Str × Str) :=
  [(['t', 's'], ['ƨ']), (['t', 'c', 'h'], ['š']), (['d', 'z'], ['ƶ']),
   (['t', 'r'], ['ŧ']), (['t', 'h'], ['ț'])]

/-- LONG_VOWEL_MAP of validator.py, in source order. -/
def LONG_VOWEL_MAP : List (Str × Str) :=
  [(['a', 'a'], ['ā']), (['e', 'e'], ['ē']), (['i', 'i'], ['ī']),
   (['o', 'o'], ['ō']), (['u', 'u'], ['ū'])]

/-- DIPHTHONG_MAP of validator.py, in source order. -/
def DIPHTHONG_MAP : List (Str × Str) :=
  [(['a', 'i'], ['æ']), (['a', 'u'], ['ɒ']), (['e', 'i'], ['ɛ']),
   (['e', 'u'], ['ə']), (['o', 'i'], ['œ']),
   (['ā', 'i'], ['ǣ']), (['ā', 'u'], ['ɒ', macron]),
   (['ē', 'i'], ['ɛ', macron]), (['ē', 'u'], ['ə', macron]),
   (['ō', 'i'], ['œ', macron])]

/-- Stable insertion of one element into an accumulator list: the new element
goes after every element le-before-or-tied with it (the placement a stable
sort gives). -/
def insertStable (le : α → α → Bool) (x : α) : List α → List α
  | [] => [x]
  | y :: ys => if le y x then y :: insertStable le x ys else x :: y :: ys

/-- Stable sort by repeated insertion, processing the input left to right;
ties keep their original relative order, as Python's sorted does. -/
def sortStable (le : α → α → Bool) (l : List α) : List α :=
  l.foldl (fun acc x => insertStable le x acc) []

/-- Sort keyed pairs by descending key length, stably: the model of Python
sorted(MAP.items(), key=lambda x: -len(x[0])) and of
sorted(KEYS, key=len, reverse=True). -/
def sortByPatLen (m : List (Str × β)) : List (Str × β) :=
  sortStable (fun a b => Nat.ble b.1.length a.1.length) m

/-- Python str.replace (all leftmost non-overlapping occurrences), written
with an explicit fuel argument so that it is structurally recursive; the
fuel is always instantiated with the length of the string. -/
def replaceAllGo (pat rep : Str) : Nat → Str → Str
  | _, [] => []
  | 0, s => s
  | fuel + 1, c :: t =>
      if pat ≠ [] ∧ pat.isPrefixOf (c :: t) then
        rep ++ replaceAllGo pat rep fuel ((c :: t).drop pat.length)
      else
        c :: replaceAllGo pat rep fuel t

/-- Python s.replace(pat, rep) for a nonempty pattern. -/
def replaceAll (pat rep : Str) (s : Str) : Str :=
  replaceAllGo pat rep s.length s

/-- Python substring containment (the in operator on strings). -/
def containsSub (pat : Str) : Str → Bool
  | [] => pat.isPrefixOf []
  | c :: t => pat.isPrefixOf (c :: t) || containsSub pat t

/-- Python str.split on a nonempty separator, with fuel for structural
recursion; acc holds the current chunk reversed. -/
def pySplitGo (sep : Str) : Nat → Str → Str → List Str
  | _, acc, [] => [acc.reverse]
  | 0, acc, s => [acc.reverse ++ s]
  | fuel + 1, acc, c :: t =>
      if sep.isPrefixOf (c :: t) then
        acc.reverse :: pySplitGo sep fuel [] ((c :: t).drop sep.length)
      else pySplitGo sep fuel (c :: acc) t

/-- Python s.split(sep) for a nonempty separator. -/
def pySplit (sep s : Str) : List Str := pySplitGo sep s.length [] s

/-- Python str.strip (whitespace trimming on both ends). -/
def stripWS (s : Str) : Str :=
  ((s.dropWhile (fun c => c ∈ [' ', '\t', '\n', '\r'])).reverse.dropWhile
    (fun c => c ∈ [' ', '\t', '\n', '\r'])).reverse

/-- The gender-variant separator " / " used throughout the repository. -/
def sepStr : Str := [' ', '/', ' ']

/-- The ordered list of digraph rewrites normalize performs: affricates
first, then long vowels, then diphthongs, each pass longest-pattern-first. -/
def normalizePasses : List (Str × Str) :=
  sortByPatLen AFFRICATE_MAP ++ sortByPatLen LONG_VOWEL_MAP ++
    sortByPatLen DIPHTHONG_MAP

/-- Run a list of rewrite passes left to right over a string. -/
def applyPasses (ps : List (Str × Str)) (s : Str) : Str :=
  ps.foldl (fun acc pr => replaceAll pr.1 pr.2 acc) s

/-- normalize of validator.py: lowercase, then run every digraph rewrite in
order. -/
def normalize (word : Str) : Str :=
  applyPasses normalizePasses (lowerStr word)

-- ===========================================================================
-- Tokenizer (validator.py tokenize)
-- ===========================================================================

/-- The scanning loop of tokenize, on an already lowercased string.  Branch
order follows the source: ejective pair, base + combining macron, glottal
marker (fused with a following vowel, else standalone), then single
characters (the diphthong / long vowel / fallback branches of the source all
emit the single character and advance one position). -/
def tokAux : Str → List Tok
  | [] => []
  | c1 :: c2 :: rest =>
      if (c1 = 'k' ∨ c1 = 'p' ∨ c1 = 't') ∧ c2 = '^' then
        [c1, c2] :: tokAux rest
      else if c2 = macron then
        [c1, c2] :: tokAux rest
      else if c1 = glottal then
        (if c2 ∈ allVowelChars then [c1, c2] :: tokAux rest
         else [c1] :: tokAux (c2 :: rest))
      else
        [c1] :: tokAux (c2 :: rest)
  | [c1] => [[c1]]

/-- tokenize of validator.py: lowercase, then scan. -/
def tokenize (word : Str) : List Tok := tokAux (lowerStr word)

-- ===========================================================================
-- Phoneme classifiers (validator.py is_glottal_vowel etc.)
-- ===========================================================================

/-- is_glottal_vowel: a two-character token, apostrophe followed by a vowel. -/
def is_glottal_vowel (t : Tok) : Bool :=
  match t with
  | [c1, c2] => c1 = glottal ∧ c2 ∈ allVowelChars
  | _ => false

/-- is_glottal_coda: the standalone apostrophe token. -/
def is_glottal_coda (t : Tok) : Bool := t = [glottal]

/-- is_vowel: membership in ALL_VOWELS, a glottal-modified vowel, or a
combining long diphthong (the last disjunct is redundant with the first,
as in the source). -/
def is_vowel (t : Tok) : Bool :=
  t ∈ ALL_VOWELS ∨ is_glottal_vowel t ∨ t ∈ DIPHTHONGS_LONG_COMBINING

/-- is_consonant: a consonant, glide, affricate or ejective token. -/
def is_consonant (t : Tok) : Bool := t ∈ consonantToks

/-- Lookup in VALID_CLUSTERS: both tokens must be single characters, the
first a key and the second among its permitted successors (a two-character
token such as an ejective is never a dict key, as in the source). -/
def validCluster (t1 t2 : Tok) : Bool :=
  match t1, t2 with
  | [a], [b] =>
      match VALID_CLUSTERS.find? (fun p => p.1 == a) with
      | some p => b ∈ p.2
      | none => false
  | _, _ => false

-- ===========================================================================
-- Syllabifier (validator.py syllabify)
-- ===========================================================================

/-- The coda decision made after a nucleus: absorb a glottal coda token if
one follows, then decide whether the next consonant closes this syllable
(it does unless consonant+vowel follow, or consonant+consonant forming a
valid cluster follow).  Returns the tokens appended to the current syllable
and the remaining token stream. -/
def vowelCoda (rest : List Tok) : List Tok × List Tok :=
  let gp : List Tok × List Tok :=
    match rest with
    | g :: r1 => if is_glottal_coda g then ([g], r1) else ([], rest)
    | [] => ([], [])
  match gp.2 with
  | c :: r2 =>
      if is_consonant c then
        match r2 with
        | x :: _ =>
            if is_vowel x then (gp.1, gp.2)
            else if is_consonant x then
              (if validCluster c x then (gp.1, gp.2) else (gp.1 ++ [c], r2))
            else (gp.1 ++ [c], r2)
        | [] => (gp.1 ++ [c], r2)
      else (gp.1, gp.2)
  | [] => (gp.1, [])

/-- The scanning loop of syllabify: fuel-indexed for structural recursion
(the fuel is instantiated with the number of tokens, which always
suffices). -/
def syllabifyGo : Nat → List Tok → List Tok → List (List Tok) × List String
  | _, cur, [] =>
      if cur = [] then ([], [])
      else if (cur.any (fun t => is_consonant t || is_glottal_coda t)) &&
              !(cur.any is_vowel) then
        ([], ["Syllable without vowel"])
      else ([cur], [])
  | 0, _, _ => ([], [])
  | fuel + 1, cur, t :: rest =>
      if is_vowel t then
        let cd := vowelCoda rest
        let r := syllabifyGo fuel [] cd.2
        ((cur ++ t :: cd.1) :: r.1, r.2)
      else if is_consonant t then
        syllabifyGo fuel (cur ++ [t]) rest
      else if is_glottal_coda t then
        let r := syllabifyGo fuel cur rest
        (r.1, "Unexpected glottal marker position" :: r.2)
      else
        let r := syllabifyGo fuel cur rest
        (r.1, "Unknown token" :: r.2)

/-- syllabify of validator.py: returns the syllables (lists of tokens) and
the accumulated error messages (message texts abbreviated: the source
interpolates the offending tokens into them). -/
def syllabify (tokens : List Tok) : List (List Tok) × List String :=
  if tokens = [] then ([], ["Empty word"])
  else syllabifyGo tokens.length [] tokens

-- ===========================================================================
-- Syllable validator (validator.py validate_syllable)
-- ===========================================================================

/-- The decomposition loop of validate_syllable: everything before the first
vowel is onset; the first vowel is the nucleus; among the tokens after it,
any glottal marker sets the glottal-coda flag and the consonants form the
coda (other tokens after the nucleus are ignored, as in the source, whose
multiple-vowel error branch is unreachable because the loop breaks at the
first vowel). -/
def syllableParts (syllable : List Tok) :
    List Tok × Option Tok × Bool × List Tok :=
  let onset := syllable.takeWhile (fun t => !is_vowel t)
  match syllable.dropWhile (fun t => !is_vowel t) with
  | [] => (onset, none, false, [])
  | v :: rest => (onset, some v, rest.any is_glottal_coda, rest.filter is_consonant)

/-- validate_syllable of validator.py: returns (valid, structure string,
errors), with the checks in source order.  Error texts abbreviated. -/
def validate_syllable (syllable : List Tok) : Bool × Str × List String :=
  match syllableParts syllable with
  | (_, none, _, _) => (false, [], ["No vowel in syllable"])
  | (onset, some _, glottalCoda, coda) =>
      let struct :=
        List.replicate onset.length 'C' ++ ['V'] ++
          (if glottalCoda then [glottal] else []) ++
          List.replicate coda.length 'C'
      let e1 := if onset.length > 2 then ["Too many onset consonants"] else []
      let e2 := if coda.length > 1 then ["Too many coda consonants"] else []
      let e3 :=
        match onset with
        | c1 :: _ => if c1 = [glottal] then ["Glottal cannot start onset"] else []
        | [] => []
      let e4 :=
        match onset with
        | _ :: c2 :: _ =>
            if c2 ∈ ONSET_C2_EXCLUDED then ["Excluded second onset consonant"]
            else []
        | _ => []
      let e5 :=
        match onset with
        | [c1, c2] =>
            if !validCluster c1 c2 then
              (if c1 ∉ EJECTIVES ∧ c1 ∉ AFFRICATES.map (fun c => [c]) then
                ["Invalid consonant cluster"] else [])
            else []
        | _ => []
      let e6 :=
        match coda with
        | c :: _ => if c = [glottal] then ["Glottal cannot be in coda"] else []
        | [] => []
      let errors := e1 ++ e2 ++ e3 ++ e4 ++ e5 ++ e6
      (errors = [], struct, errors)

-- ===========================================================================
-- Word validator (validator.py validate_word)
-- ===========================================================================

/-- The result record of validate_word.  The sound-map annotation fields
(onset, primary_domain, secondary_domain) and the dictionary-existence
annotation, which are attached only on the successful path and which no
claim concerns, are not modelled; error and warning texts are abbreviated
(the source interpolates the offending input into them). -/
structure ValidationResult where
  word : Str
  normalized : Str
  valid : Bool
  errors : List String
  warnings : List String
  syllables : List Str
  syllableStructures : List Str
  phonemes : List Tok
  isVariant : Bool
deriving DecidableEq

/-- The token set accepted by the phoneme-membership check of validate_word:
CONSONANTS, VOWELS, GLIDES, AFFRICATES, DIPHTHONGS (including the combining
forms) and EJECTIVES. -/
def allValidToks : List Tok :=
  (CONSONANTS ++ VOWELS_SHORT ++ VOWELS_LONG ++ GLIDES ++ AFFRICATES ++
    DIPHTHONGS_SHORT ++ [DIPHTHONG_LONG_PRECOMPOSED]).map (fun c => [c]) ++
    DIPHTHONGS_LONG_COMBINING ++ EJECTIVES

/-- The phoneme-membership errors of validate_word, one per offending
token, in token order. -/
def phonemeErrors (tokens : List Tok) : List String :=
  tokens.filterMap (fun t =>
    if is_glottal_vowel t then none
    else if is_glottal_coda t then none
    else if t ∈ DIPHTHONGS_LONG_COMBINING then none
    else if t ∈ allValidToks then none
    else some "Invalid phoneme")

/-- The non-variant path of validate_word: normalize, check the two
forbidden sequences (each short-circuits), check phoneme membership,
syllabify (errors fatal), then validate every syllable accumulating all
errors. -/
def validate_word_core (word : Str) (autoNormalize : Bool) : ValidationResult :=
  let normalized := if autoNormalize then normalize word else lowerStr word
  let warnings := if normalized ≠ lowerStr word then ["Auto-normalized"] else []
  let tokens := tokenize normalized
  if containsSub ['^', glottal] normalized then
    { word := word, normalized := normalized, valid := false,
      errors := ["Ejective marker cannot precede glottal marker"],
      warnings := warnings, syllables := [], syllableStructures := [],
      phonemes := tokens, isVariant := false }
  else if containsSub [glottal, 'a'] normalized then
    { word := word, normalized := normalized, valid := false,
      errors := ["Glottal marker cannot precede the vowel a"],
      warnings := warnings, syllables := [], syllableStructures := [],
      phonemes := tokens, isVariant := false }
  else
    let phonErrs := phonemeErrors tokens
    if phonErrs ≠ [] then
      { word := word, normalized := normalized, valid := false,
        errors := phonErrs, warnings := warnings, syllables := [],
        syllableStructures := [], phonemes := tokens, isVariant := false }
    else
      let sy := syllabify tokens
      if sy.2 ≠ [] then
        { word := word, normalized := normalized, valid := false,
          errors := sy.2, warnings := warnings, syllables := [],
          syllableStructures := [], phonemes := tokens, isVariant := false }
      else
        let results := sy.1.map (fun s => (s, validate_syllable s))
        { word := word, normalized := normalized,
          valid := results.all (fun p => p.2.1),
          errors := (results.map (fun p => if p.2.1 then [] else p.2.2.2)).flatten,
          warnings := warnings,
          syllables := sy.1.map (fun s => s.flatten),
          syllableStructures := results.map (fun p => p.2.2.1),
          phonemes := tokens, isVariant := false }

/-- validate_word of validator.py.  A word containing the gender-variant
separator is split, each variant validated independently, and the combined
record returned (its syllables field holds the variant strings, as in the
source); otherwise the core path runs.  Variants produced by the split
never contain the separator again, so the source's recursion bottoms out
after one level, which the core call models. -/
def validate_word (word : Str) (autoNormalize : Bool) : ValidationResult :=
  if containsSub sepStr word then
    let variants := (pySplit sepStr word).map stripWS
    let results := variants.map (fun v => validate_word_core v autoNormalize)
    { word := word, normalized := word,
      valid := results.all (fun r => r.valid),
      errors := (results.map (fun r => if r.valid then [] else r.errors)).flatten,
      warnings := ["Gender variants"],
      syllables := variants,
      syllableStructures := [],
      phonemes := (results.map (fun r => r.phonemes)).flatten,
      isVariant := true }
  else validate_word_core word autoNormalize

-- ===========================================================================
-- Edit distance (validator.py edit_distance)
-- ===========================================================================

/-- The inner loop of the Levenshtein dynamic program: walk the second
string and the previous row together, carrying the value just written into
the current row. -/
def rowAux (c1 : Char) : Str → List Nat → Nat → List Nat
  | [], _, _ => []
  | _ :: _, [], _ => []
  | _ :: _, [_], _ => []
  | c2 :: cs, p0 :: p1 :: ps, last =>
      let v := min (p1 + 1)
        (min (last + 1) (p0 + (if c1 = c2 then 0 else 1)))
      v :: rowAux c1 cs (p1 :: ps) v

/-- The outer loop of the dynamic program: one row per character of the
first string; the counter i is the number of characters processed. -/
def dpLoop (s2 : Str) : Str → List Nat → Nat → List Nat
  | [], prev, _ => prev
  | c1 :: rest, prev, i =>
      dpLoop s2 rest ((i + 1) :: rowAux c1 s2 prev (i + 1)) (i + 1)

/-- The body of edit_distance after the argument swap: early return on an
empty second string, else the dynamic program, reading the last entry of
the final row. -/
def edAux (s1 s2 : Str) : Nat :=
  if s2.length = 0 then s1.length
  else (dpLoop s2 s1 (List.range (s2.length + 1)) 0).getLastD 0

/-- edit_distance of validator.py: swap so the first string is the longer,
then run the dynamic program. -/
def edit_distance (s1 s2 : Str) : Nat :=
  if s1.length < s2.length then edAux s2 s1 else edAux s1 s2

/-- The textbook recursive Levenshtein distance, the specification the
dynamic program is proved against. -/
def lev : Str → Str → Nat
  | [], ys => ys.length
  | _ :: xs, [] => xs.length + 1
  | x :: xs, y :: ys =>
      min (lev xs (y :: ys) + 1)
        (min (lev (x :: xs) ys + 1) (lev xs ys + (if x = y then 0 else 1)))
termination_by a b => a.length + b.length

/-- An edit script aligning two strings: n is the number of unit-cost
operations (substitute, delete, insert) it uses. -/
inductive Aligns : Str → Str → Nat → Prop
  | nil : Aligns [] [] 0
  | keep (x : Char) {xs ys n} : Aligns xs ys n → Aligns (x :: xs) (x :: ys) n
  | subst (x y : Char) {xs ys n} :
      Aligns xs ys n → Aligns (x :: xs) (y :: ys) (n + 1)
  | del (x : Char) {xs ys n} : Aligns xs ys n → Aligns (x :: xs) ys (n + 1)
  | ins (y : Char) {xs ys n} : Aligns xs ys n → Aligns xs (y :: ys) (n + 1)

-- ===========================================================================
-- Similarity checker (validator.py check_similarity)
-- ===========================================================================

/-- A dictionary entry as check_similarity reads it (only the nyrakai and
english fields are consulted).  The engine receives the lexicon snapshot as
an argument; the source reads it from the dictionary JSON file, which is
external state per the specification. -/
structure DictEntry where
  nyrakai : Str
  english : Str
deriving DecidableEq

/-- One reported similar word. -/
structure SimilarRecord where
  word : Str
  meaning : Str
  distance : Nat
deriving DecidableEq

/-- The report of check_similarity. -/
structure SimilarityReport where
  word : Str
  normalized : Str
  similarCount : Nat
  similarWords : List SimilarRecord
  hasConflicts : Bool
deriving DecidableEq

/-- Expansion of a lexicon surface form into its gender variants. -/
def entryVariants (nyr : Str) : List Str :=
  if containsSub sepStr nyr then (pySplit sepStr nyr).map stripWS else [nyr]

/-- check_similarity of validator.py: edit distance from the normalized
query to every variant of every entry, keeping non-identical variants
within the threshold when both sides are longer than two characters,
sorted by distance (stably, as Python's sort); has_conflicts flags a
distance-1 hit. -/
def check_similarity (words : List DictEntry) (word : Str) (threshold : Nat) :
    SimilarityReport :=
  let normalized := normalize word
  let similar := (words.map (fun w =>
    (entryVariants w.nyrakai).filterMap (fun v =>
      if v = normalized then none
      else
        let dist := edit_distance normalized v
        if dist ≤ threshold ∧ normalized.length > 2 ∧ v.length > 2 then
          some { word := v, meaning := w.english, distance := dist }
        else none))).flatten
  let sorted := sortStable (fun a b => Nat.ble a.distance b.distance) similar
  { word := word, normalized := normalized, similarCount := sorted.length,
    similarWords := sorted,
    hasConflicts := (sorted.filter (fun s => s.distance == 1)).length > 0 }

-- ===========================================================================
-- Derived-form collision checker (validator.py check_derived_collisions)
-- ===========================================================================

/-- AFFIXES prefix registry of validator.py, in source order. -/
def AFFIX_PFX : List (Str × String) :=
  [(['z', 'a'], "negation/opposite"),
   (['f', 'ē'], "reversal/undo"),
   (['n', glottal], "abstract/truth quality")]

/-- AFFIXES suffix registry of validator.py, in source order. -/
def AFFIX_SFX : List (Str × String) :=
  [(['r', 'a'], "nominalizer (action→thing)"),
   (['ƨ', 'u'], "agentive (action→doer)"),
   (['ț', 'a', 'l'], "resultative (action→result)"),
   (['k', '^', 'e'], "diminutive (verb)"),
   (['ñ', 'o', 'r'], "augmentative (great/intense)"),
   (['ɛ', 'm'], "adjectivizer (→like X)"),
   (['r', 'a', 'š'], "keeper/guardian"),
   (['b', 'r', 'e', 'n'], "place/domain"),
   (['ț', 'æ', 'l'], "essence/state"),
   (['š', 'e', 'k'], "tool/instrument"),
   (['r', 'a', 'u', 'n'], "collective/lineage"),
   (['k', '^', 'æ', 'ț'], "sacred intensifier"),
   (['æ', 'n'], "masculine gender"),
   (['ñ', 'ī'], "feminine gender"),
   (['a', 'ñ', 'ī'], "feminine gender (with bridge)"),
   (['œ'], "masculine/mixed plural"),
   (['ā'], "feminine plural"),
   (['r', 'i'], "masc/mixed pronoun plural"),
   (['r', 'ā'], "feminine pronoun plural")]

/-- A lexicon entry as check_derived_collisions reads it. -/
structure LexEntry where
  nyrakai : Str
  english : Str
  isRoot : Bool
  derivedFrom : Option (Str × Str)
deriving DecidableEq

/-- The per-word metadata stored in the existing-words lookup. -/
structure EWInfo where
  meaning : Str
  derivedFrom : Option (Str × Str)
  isVariant : Bool
deriving DecidableEq

/-- One collision record.  The intentional flag models the key the source
adds on the intentional path. -/
structure CollisionData where
  ctype : String
  root : Str
  rootMeaning : Str
  affix : Str
  affixMeaning : String
  derived : Str
  collidesWith : Str
  intentional : Bool
deriving DecidableEq

/-- The report of check_derived_collisions. -/
structure CollisionReport where
  totalRoots : Nat
  totalDerivations : Nat
  collisionCount : Nat
  collisions : List CollisionData
  intentionalCount : Nat
  intentional : List CollisionData
deriving DecidableEq

/-- The existing-words pairs one entry contributes (variants expanded). -/
def ewPairs (e : LexEntry) : List (Str × EWInfo) :=
  if containsSub sepStr e.nyrakai then
    ((pySplit sepStr e.nyrakai).map stripWS).map
      (fun v => (v, ⟨e.english, e.derivedFrom, true⟩))
  else [(e.nyrakai, ⟨e.english, e.derivedFrom, false⟩)]

/-- The existing-words dictionary, built so that lookup finds the most
recently written binding for a key (Python dict overwrite semantics). -/
def buildExisting (entries : List LexEntry) : List (Str × EWInfo) :=
  entries.foldl (fun acc e => (ewPairs e).reverse ++ acc) []

/-- Lookup in the existing-words dictionary. -/
def lookupEW (m : List (Str × EWInfo)) (k : Str) : Option EWInfo :=
  (m.find? (fun p => p.1 == k)).map Prod.snd

/-- The roots the derivation loop works from: root entries with a nonempty
surface form and no variant notation, in lexicon order. -/
def rootsOf (entries : List LexEntry) : List (Str × Str) :=
  entries.filterMap (fun e =>
    if e.isRoot ∧ e.nyrakai ≠ [] ∧ ¬containsSub sepStr e.nyrakai then
      some (e.nyrakai, e.english)
    else none)

/-- Classification of one synthesized derivation: no collision when the
derived form is absent or carries the same meaning; otherwise the record
goes to the intentional list when the recorded provenance names this root
and either this affix or a variant target, else to the accidental list. -/
def collideStep (ew : List (Str × EWInfo)) (root : Str × Str) (ctype : String)
    (affix : Str × String) (derived : Str) :
    List CollisionData × List CollisionData :=
  match lookupEW ew derived with
  | some info =>
      if info.meaning ≠ root.2 then
        let base : CollisionData :=
          { ctype := ctype, root := root.1, rootMeaning := root.2,
            affix := affix.1, affixMeaning := affix.2, derived := derived,
            collidesWith := info.meaning, intentional := false }
        match info.derivedFrom with
        | some df =>
            if df.1 = root.1 then
              (if df.2 = affix.1 ∨ info.isVariant then
                ([], [{ base with intentional := true }])
              else ([base], []))
            else ([base], [])
        | none => ([base], [])
      else ([], [])
  | none => ([], [])

/-- check_derived_collisions of validator.py, over an explicit lexicon
snapshot: synthesize every prefix+root and root+suffix form and classify
the collisions.  total_derivations counts every synthesized form. -/
def check_derived_collisions (entries : List LexEntry) : CollisionReport :=
  let ew := buildExisting entries
  let roots := rootsOf entries
  let step := fun (acc : List CollisionData × List CollisionData)
      (root : Str × Str) =>
    let pre := AFFIX_PFX.foldl (fun a affix =>
      let r := collideStep ew root "prefix" affix (affix.1 ++ root.1)
      (a.1 ++ r.1, a.2 ++ r.2)) acc
    AFFIX_SFX.foldl (fun a affix =>
      let r := collideStep ew root "suffix" affix (root.1 ++ affix.1)
      (a.1 ++ r.1, a.2 ++ r.2)) pre
  let cs := roots.foldl step ([], [])
  { totalRoots := roots.length,
    totalDerivations := roots.length * (AFFIX_PFX.length + AFFIX_SFX.length),
    collisionCount := cs.1.length, collisions := cs.1,
    intentionalCount := cs.2.length, intentional := cs.2 }

-- ===========================================================================
-- Morpheme analyzer (sentence-validator.py)
-- ===========================================================================

namespace SentenceValidator

/-- Build an affix label the way the source interpolates it: the suffix
text, a space, and the parenthesized meaning. -/
def labelOf (sfx : Str) (meaning : String) : String :=
  String.mk sfx ++ " (" ++ meaning ++ ")"

/-- CASE_SUFFIXES of sentence-validator.py, in source order. -/
def CASE_SUFFIXES : List (Str × String) :=
  [(['a', 'š'], "accusative"), (['š', 'a', 'r'], "genitive"),
   (['i', 'ț'], "dative"), (['e', 'k'], "instrumental"),
   (['ñ', 'e', 'n'], "locative"), (['ɒ', 'r'], "ablative"),
   (['ț', 'i'], "vocative"), (['z', 'ɒ', 'ț'], "privative")]

/-- ASPECT_SUFFIXES of sentence-validator.py, in source order. -/
def ASPECT_SUFFIXES : List (Str × String) :=
  [(['a', 'r', 'e', 'k'], "completed"), (['i', 'r', 'æ', 'n'], "ongoing"),
   (['a', 'n', 'e', 'ț'], "habitual"), (['a', 'ț', 'a', 'r'], "potential")]

/-- GENDER_SUFFIXES of sentence-validator.py, in source order. -/
def GENDER_SUFFIXES : List (Str × String) :=
  [(['ñ', 'ī'], "feminine"), (['a', 'ñ', 'ī'], "feminine (with bridge)"),
   (['æ', 'n'], "masculine")]

/-- MOOD_SUFFIXES of sentence-validator.py, in source order. -/
def MOOD_SUFFIXES : List (Str × String) :=
  [(['ț', 'i', 'r', 'æ'], "imperative"), (['h', 'ā', 'l', 'i'], "optative"),
   (['w', 'ɒ', 'ț'], "conditional")]

/-- PRONOUNS of sentence-validator.py (a set; only membership and
match-any iteration are used, so the order is immaterial). -/
def PRONOUNS : List Str :=
  [['f', 'ā'], ['g', 'æ'], ['š', 'ā'],
   ['f', 'ā', 'r', 'i'], ['f', 'ā', 'r', 'ā'],
   ['g', 'æ', 'r', 'i'], ['g', 'æ', 'r', 'ā'],
   ['š', 'ā', 'r', 'i'], ['š', 'ā', 'r', 'ā'],
   ['š', 'œ'], ['š', 'ɒ'], ['k', 'w', 'æ'], ['h', 'œ', 'r']]

/-- POSSESSIVE_PREFIXES of sentence-validator.py, in source order. -/
def POSSESSIVE_PFX : List (Str × String) :=
  [(['f', 'ā'], "my/I"), (['g', 'æ'], "your/you"), (['š', 'ā'], "his/her/it"),
   (['f', 'ā', 'r', 'i'], "our/we"), (['g', 'æ', 'r', 'i'], "your (pl)"),
   (['š', 'ā', 'r', 'i'], "their/they")]

/-- VOICE_MARKERS of sentence-validator.py. -/
def VOICE_MARKERS : List Str := [['r', 'ō', 'n']]

/-- CONJUNCTIONS of sentence-validator.py. -/
def CONJUNCTIONS : List Str :=
  [['ə', 'd', 'a'], ['m', 'u', 'r'], ['w', 'ɒ'], ['ț', 'ɒ'],
   ['z', 'ō', 'n'], ['z', 'ē', 'n']]

/-- POSTPOSITIONS of sentence-validator.py. -/
def POSTPOSITIONS : List Str := [['a', 'ñ']]

/-- QUESTION_PARTICLE of sentence-validator.py. -/
def QUESTION_PARTICLE : Str := ['k', 'a']

/-- One suffix-category pass of strip_suffixes: try the category's members
longest first (stably ordered, as Python's sorted) and strip at most one. -/
def stripOne (table : List (Str × String)) (w : Str) : Str × List String :=
  match (sortByPatLen table).find? (fun p => p.1.isSuffixOf w) with
  | some p => (w.take (w.length - p.1.length), [labelOf p.1 p.2])
  | none => (w, [])

/-- strip_suffixes of sentence-validator.py: one aspect, mood, case and
gender suffix in that order, then the final-w interfix, then the
pronoun-revealing interfix (labels of the interfixes are prepended, as the
source's insert(0, ...) does). -/
def strip_suffixes (word : Str) : Str × List String :=
  let s1 := stripOne ASPECT_SUFFIXES word
  let s2 := stripOne MOOD_SUFFIXES s1.1
  let s3 := stripOne CASE_SUFFIXES s2.1
  let s4 := stripOne GENDER_SUFFIXES s3.1
  let found := s1.2 ++ s2.2 ++ s3.2 ++ s4.2
  let w5 := s4.1
  let p5 : Str × List String :=
    if w5.getLastD ' ' = 'w' ∧ w5.length > 2 then
      (w5.dropLast, "-w- (interfix)" :: found)
    else (w5, found)
  if 'w' ∈ p5.1 ∧ p5.1.length > 2 then
    let possibleRoot := p5.1.eraseP (fun c => c == 'w')
    if possibleRoot ∈ PRONOUNS then (possibleRoot, "-w- (interfix)" :: p5.2)
    else p5
  else p5

/-- Membership in the dictionary word set, checked as the source does (the
word itself or its lowercase form). -/
def memD (D : List Str) (s : Str) : Bool :=
  D.contains s || D.contains (lowerStr s)

/-- The possessive-prefix stripping loop of validate_word: prefixes longest
first; a prefix is stripped only when the word extends it strictly, the
suffix-stripped un-prefixed word is not in the dictionary, and the
suffix-stripped remainder is.  Returns the prefix and the remainder. -/
def possessiveStrip (D : List Str) (word : Str) : Option (Str × Str) :=
  (sortByPatLen POSSESSIVE_PFX).findSome? (fun p =>
    if p.1.isPrefixOf word ∧ word.length > p.1.length ∧
        memD D (strip_suffixes word).1 = false ∧
        memD D (strip_suffixes (word.drop p.1.length)).1 = true then
      some (p.1, word.drop p.1.length)
    else none)

/-- The pronoun + optional interfix + case-suffix pattern check. -/
def pronounCaseMatch (w : Str) : Bool :=
  PRONOUNS.any (fun p =>
    p.isPrefixOf w ∧
      (let rem := w.drop p.length
       (rem.head? = some 'w' ∧ (CASE_SUFFIXES.map Prod.fst).contains (rem.drop 1)) ∨
        (CASE_SUFFIXES.map Prod.fst).contains rem))

/-- The voice-marker check: split the root at a known marker; a match needs
exactly two parts with the left part in the dictionary. -/
def voiceMatch (D : List Str) (root : Str) : Bool :=
  VOICE_MARKERS.any (fun m =>
    containsSub m root &&
      (let parts := pySplit m root
       parts.length = 2 ∧ memD D (parts.headD [])))

/-- validate_word of sentence-validator.py: negation prefix, pronoun and
closed-class matches, possessive-prefix stripping, suffix stripping, voice
marker, dictionary lookups, and the interfix-removal fallback.  The
redundant second root lookup guarded by the negation flag is kept as in
the source.  Error text abbreviated. -/
def validate_word (D : List Str) (word : Str) : Bool × List String :=
  let original := word
  let w1 := if (['z', 'a'] : Str).isPrefixOf word then word.drop 2 else word
  let hasNeg := (['z', 'a'] : Str).isPrefixOf word
  if w1 ∈ PRONOUNS then (true, [])
  else if pronounCaseMatch w1 then (true, [])
  else if w1 ∈ CONJUNCTIONS then (true, [])
  else if w1 ∈ POSTPOSITIONS then (true, [])
  else if w1 = QUESTION_PARTICLE then (true, [])
  else
    let w2 := match possessiveStrip D w1 with
      | some pr => pr.2
      | none => w1
    let root := (strip_suffixes w2).1
    if voiceMatch D root then (true, [])
    else if memD D root then (true, [])
    else if hasNeg ∧ memD D root then (true, [])
    else if memD D original then (true, [])
    else if 'w' ∈ root ∧ memD D (root.filter (fun c => c ≠ 'w')) then (true, [])
    else (false, ["Unknown word or root"])

end SentenceValidator

-- ===========================================================================
-- Theorems
-- ===========================================================================

/-- The tokenizer concatenation lemma: every branch of the scan emits
exactly the characters it consumes. -/
theorem tokAux_flatten (s : Str) : (tokAux s).flatten = s := by
  induction s using tokAux.induct <;> simp [tokAux, *]

/-- Claim C10: concatenating the tokens of tokenize, in order, yields
exactly the lowercased input string; no codepoint is dropped, reordered or
duplicated, even unrecognized ones. -/
theorem claim10_tokenize_round_trip (w : Str) :
    (tokenize w).flatten = lowerStr w := by
  simp [tokenize, tokAux_flatten]

/-- The tokens vowelCoda moves into the current syllable, together with the
stream it leaves, concatenate back to the stream it was given. -/
theorem vowelCoda_append (rest : List Tok) :
    (vowelCoda rest).1 ++ (vowelCoda rest).2 = rest := by
  rcases rest with _ | ⟨g, r1⟩
  · rfl
  · by_cases hg : is_glottal_coda g = true
    · rcases r1 with _ | ⟨c, r2⟩
      · simp [vowelCoda, hg]
      · by_cases hc : is_consonant c = true
        · rcases r2 with _ | ⟨x, r3⟩
          · simp [vowelCoda, hg, hc]
          · by_cases hv : is_vowel x = true
            · simp [vowelCoda, hg, hc, hv]
            · by_cases hx : is_consonant x = true
              · by_cases hcl : validCluster c x = true
                · simp [vowelCoda, hg, hc, hv, hx, hcl]
                · simp [vowelCoda, hg, hc, hv, hx, hcl]
              · simp [vowelCoda, hg, hc, hv, hx]
        · simp [vowelCoda, hg, hc]
    · by_cases hc : is_consonant g = true
      · rcases r1 with _ | ⟨x, r2⟩
        · simp [vowelCoda, hg, hc]
        · by_cases hv : is_vowel x = true
          · simp [vowelCoda, hg, hc, hv]
          · by_cases hx : is_consonant x = true
            · by_cases hcl : validCluster g x = true
              · simp [vowelCoda, hg, hc, hv, hx, hcl]
              · simp [vowelCoda, hg, hc, hv, hx, hcl]
            · simp [vowelCoda, hg, hc, hv, hx]
      · simp [vowelCoda, hg, hc]

/-- When the syllabifier reports no error it has placed every token it was
given, in order, after the accumulated onset. -/
theorem syllabifyGo_flatten :
    ∀ (fuel : Nat) (cur : List Tok) (ts : List Tok), ts.length ≤ fuel →
      (syllabifyGo fuel cur ts).2 = [] →
      (syllabifyGo fuel cur ts).1.flatten = cur ++ ts := by
  intro fuel
  induction fuel with
  | zero =>
    intro cur ts hlen herr
    have hts : ts = [] := by
      cases ts with
      | nil => rfl
      | cons a t => simp at hlen
    subst hts
    by_cases hcur : cur = []
    · simp [syllabifyGo, hcur]
    · simp only [syllabifyGo, if_neg hcur] at herr ⊢
      split_ifs at herr ⊢
      all_goals simp_all
  | succ fuel ih =>
    intro cur ts hlen herr
    cases ts with
    | nil =>
      by_cases hcur : cur = []
      · simp [syllabifyGo, hcur]
      · simp only [syllabifyGo, if_neg hcur] at herr ⊢
        split_ifs at herr ⊢
        all_goals simp_all
    | cons t rest =>
      by_cases hv : is_vowel t = true
      · simp only [syllabifyGo, if_pos hv] at herr ⊢
        have hsplit := vowelCoda_append rest
        have hlen2 : (vowelCoda rest).2.length ≤ fuel := by
          have h1 : (vowelCoda rest).2.length ≤ rest.length := by
            calc (vowelCoda rest).2.length
                ≤ (vowelCoda rest).1.length + (vowelCoda rest).2.length :=
                  Nat.le_add_left _ _
              _ = rest.length := by rw [← List.length_append, hsplit]
          simp only [List.length_cons] at hlen
          omega
        have hrec := ih [] (vowelCoda rest).2 hlen2 herr
        simp only [List.flatten_cons, hrec, List.nil_append, List.append_assoc,
          List.cons_append, hsplit]
      · by_cases hc : is_consonant t = true
        · simp only [syllabifyGo, if_neg hv, if_pos hc] at herr ⊢
          have hrec := ih (cur ++ [t]) rest
            (by simp only [List.length_cons] at hlen; omega) herr
          simpa using hrec
        · by_cases hgc : is_glottal_coda t = true
          · simp [syllabifyGo, hv, hc, hgc] at herr
          · simp [syllabifyGo, hv, hc, hgc] at herr

/-- Claim C1, counterexample: for the input string k, tokenization yields
the single consonant token k, but syllabify reports a syllable-without-
vowel error and returns no syllables, so concatenating the syllable token
lists loses the token: the round-trip fails on inputs whose tokens cannot
be syllabified. -/
theorem claim1_counterexample :
    ¬ ((syllabify (tokenize (normalize ['k']))).1.flatten
        = tokenize (normalize ['k'])) := by decide

/-- Claim C1, amended: whenever syllabify(tokenize(normalize x)) reports no
errors, concatenating its per-syllable token lists, in order, yields
exactly tokenize(normalize x) — error-free syllabification partitions the
tokens, never dropping or duplicating any.  (On erroneous inputs the
offending tokens are dropped from the syllable lists and reported in the
error list instead.) -/
theorem claim1_amended (x : Str)
    (h : (syllabify (tokenize (normalize x))).2 = []) :
    (syllabify (tokenize (normalize x))).1.flatten
      = tokenize (normalize x) := by
  set ts := tokenize (normalize x) with hts
  by_cases hnil : ts = []
  · simp [syllabify, hnil] at h
  · simp only [syllabify, if_neg hnil] at h ⊢
    simpa using syllabifyGo_flatten ts.length [] ts (Nat.le_refl _) h

/-- Witness for claim C1 at the concrete input kæ, whose single syllable
carries both tokens. -/
theorem claim1_witness :
    (syllabify (tokenize (normalize ['k', 'æ']))).2 = [] ∧
      (syllabify (tokenize (normalize ['k', 'æ']))).1.flatten
        = tokenize (normalize ['k', 'æ']) :=
  ⟨by decide, claim1_amended ['k', 'æ'] (by decide)⟩

/-- A glottal-coda token is not a consonant token. -/
theorem glottal_not_consonant (t : Tok) (h : is_glottal_coda t = true) :
    is_consonant t = false := by
  have ht : t = [glottal] := by simpa [is_glottal_coda] using h
  subst ht
  decide

/-- The head of a nonempty dropWhile residue fails the predicate. -/
theorem dropWhile_head_false {α : Type} {p : α → Bool} :
    ∀ (l : List α) {a : α} {t : List α}, l.dropWhile p = a :: t → p a = false := by
  intro l
  induction l with
  | nil => intro a t h; simp at h
  | cons x xs ih =>
    intro a t h
    rw [List.dropWhile_cons] at h
    split_ifs at h with hx
    · exact ih h
    · cases h
      simpa using hx

/-- Claim C8, counterexample: the two-vowel syllable a a is accepted as
valid with structure V, whose single character does not match the two
tokens — the source's multiple-vowel rejection is unreachable because its
scan breaks at the first vowel. -/
theorem claim8_counterexample :
    (validate_syllable [['a'], ['a']]).1 = true ∧
      (validate_syllable [['a'], ['a']]).2.1.length ≠
        ([['a'], ['a']] : List Tok).length := by decide

/-- Claim C8, amended: for every syllable built from classifiable tokens —
exactly one vowel, at most one glottal-coda marker, every other token a
consonant — acceptance by validate_syllable implies onset length at most
2, consonant-coda length at most 1, and a structure string whose character
count equals the syllable's token count (the glottal coda contributing the
apostrophe after V). -/
theorem claim8_amended (syl : List Tok)
    (hv : syl.countP is_vowel = 1)
    (hg : syl.countP is_glottal_coda ≤ 1)
    (hcl : ∀ t ∈ syl, is_vowel t = true ∨ is_consonant t = true ∨
      is_glottal_coda t = true)
    (hvalid : (validate_syllable syl).1 = true) :
    (syllableParts syl).1.length ≤ 2 ∧
      (syllableParts syl).2.2.2.length ≤ 1 ∧
      (validate_syllable syl).2.1.length = syl.length := by
  rcases hdw : syl.dropWhile (fun t => !is_vowel t) with _ | ⟨v, rest⟩
  · exfalso
    have hsyl : syl = syl.takeWhile (fun t => !is_vowel t) := by
      conv_lhs => rw [← List.takeWhile_append_dropWhile
        (p := fun t => !is_vowel t) (l := syl)]
      rw [hdw, List.append_nil]
    have : syl.countP is_vowel = 0 := by
      rw [List.countP_eq_zero]
      intro a ha
      have := List.mem_takeWhile_imp (hsyl ▸ ha)
      simpa using this
    omega
  · have hparts : syllableParts syl =
        (syl.takeWhile (fun t => !is_vowel t), some v, rest.any is_glottal_coda,
          rest.filter is_consonant) := by
      simp [syllableParts, hdw]
    have hsyl : syl = syl.takeWhile (fun t => !is_vowel t) ++ v :: rest := by
      conv_lhs => rw [← List.takeWhile_append_dropWhile
        (p := fun t => !is_vowel t) (l := syl)]
      rw [hdw]
    have hvv : is_vowel v = true := by
      have := dropWhile_head_false (p := fun t => !is_vowel t) syl hdw
      simpa using this
    have honv : (syl.takeWhile (fun t => !is_vowel t)).countP is_vowel = 0 := by
      rw [List.countP_eq_zero]
      intro a ha
      simpa using List.mem_takeWhile_imp ha
    have hsplitv : (syl.takeWhile (fun t => !is_vowel t)).countP is_vowel +
        (v :: rest).countP is_vowel = syl.countP is_vowel := by
      rw [← List.countP_append, ← hdw, List.takeWhile_append_dropWhile]
    have hsplitg : (syl.takeWhile (fun t => !is_vowel t)).countP is_glottal_coda +
        (v :: rest).countP is_glottal_coda = syl.countP is_glottal_coda := by
      rw [← List.countP_append, ← hdw, List.takeWhile_append_dropWhile]
    have hrestv : rest.countP is_vowel = 0 := by
      have hc : (v :: rest).countP is_vowel = rest.countP is_vowel + 1 := by
        rw [List.countP_cons]; simp [hvv]
      omega
    have hrestg : rest.countP is_glottal_coda ≤ 1 := by
      have hc : (v :: rest).countP is_glottal_coda =
          rest.countP is_glottal_coda +
            (if is_glottal_coda v = true then 1 else 0) := by
        rw [List.countP_cons]
      omega
    have hexact : ∀ t ∈ rest, (!is_consonant t) = is_glottal_coda t := by
      intro t ht
      have hmem : t ∈ syl := by rw [hsyl]; simp [ht]
      have hnv : is_vowel t = false := by
        have := List.countP_eq_zero.mp hrestv t ht
        simpa using this
      rcases hcl t hmem with h | h | h
      · rw [h] at hnv; cases hnv
      · cases hgc : is_glottal_coda t with
        | false => rw [h]; rfl
        | true => rw [glottal_not_consonant t hgc] at h; cases h
      · rw [h, glottal_not_consonant t h]; rfl
    have hlenrest :
        rest.length = rest.countP is_consonant + rest.countP is_glottal_coda := by
      rw [List.length_eq_countP_add_countP is_consonant]
      congr 1
      refine List.countP_congr ?_
      intro a ha
      have h := hexact a ha
      cases hcc : is_consonant a with
      | false => rw [hcc] at h; simp at h; simp [hcc, ← h]
      | true => rw [hcc] at h; simp at h; simp [hcc, ← h]
    simp only [validate_syllable, hparts] at hvalid ⊢
    have herr := of_decide_eq_true hvalid
    simp only [List.append_eq_nil] at herr
    obtain ⟨⟨⟨⟨⟨he1, he2⟩, he3⟩, he4⟩, he5⟩, he6⟩ := herr
    refine ⟨?_, ?_, ?_⟩
    · by_contra hgt
      simp only [not_le] at hgt
      rw [if_pos (by omega)] at he1
      cases he1
    · by_contra hgt
      simp only [not_le] at hgt
      rw [if_pos (by omega)] at he2
      cases he2
    · have hslen : syl.length =
          (syl.takeWhile (fun t => !is_vowel t)).length + 1 + rest.length := by
        conv_lhs => rw [hsyl]
        simp [List.length_append]
        omega
      rw [← List.countP_eq_length_filter]
      cases hany : rest.any is_glottal_coda with
      | false =>
        have h0 : rest.countP is_glottal_coda = 0 := by
          rw [List.countP_eq_zero]
          intro a ha
          have := List.any_eq_false.mp hany a ha
          simpa using this
        simp [hany, hslen]
        omega
      | true =>
        have h1 : 0 < rest.countP is_glottal_coda := by
          rw [List.countP_pos_iff]
          obtain ⟨a, ha, hpa⟩ := List.any_eq_true.mp hany
          exact ⟨a, ha, hpa⟩
        simp [hany, hslen]
        omega

/-- Witness for claim C8 at the syllable k a (structure CV). -/
theorem claim8_witness :
    (syllableParts [['k'], ['a']]).1.length ≤ 2 ∧
      (syllableParts [['k'], ['a']]).2.2.2.length ≤ 1 ∧
      (validate_syllable [['k'], ['a']]).2.1.length =
        ([['k'], ['a']] : List Tok).length :=
  claim8_amended [['k'], ['a']] (by decide) (by decide) (by decide) (by decide)

/-- Claim C9: stripping affixes from the surface form fāwaš yields the root
fā, which is a pronoun, by removing the case suffix aš (accusative) and
the interfix consonant w. -/
theorem claim9_strip_fawash :
    SentenceValidator.strip_suffixes ['f', 'ā', 'w', 'a', 'š'] =
        (['f', 'ā'], ["-w- (interfix)", "aš (accusative)"]) ∧
      ['f', 'ā'] ∈ SentenceValidator.PRONOUNS := by
  constructor
  · rfl
  · decide

/-- Claim C6: in root classification a possessive prefix is stripped only
when the suffix-stripped un-prefixed word is not in the lexicon while the
suffix-stripped prefix-stripped remainder is; and whenever the un-prefixed
suffix-stripped form is itself a lexicon word, no possessive prefix is
removed. -/
theorem claim6_possessive_rule :
    (∀ (D : List Str) (w p rem : Str),
        SentenceValidator.possessiveStrip D w = some (p, rem) →
          SentenceValidator.memD D (SentenceValidator.strip_suffixes w).1 =
              false ∧
            SentenceValidator.memD D
              (SentenceValidator.strip_suffixes rem).1 = true) ∧
      ∀ (D : List Str) (w : Str),
        SentenceValidator.memD D (SentenceValidator.strip_suffixes w).1 =
            true →
          SentenceValidator.possessiveStrip D w = none := by
  constructor
  · intro D w p rem h
    obtain ⟨a, _, ha⟩ := List.exists_of_findSome?_eq_some h
    by_cases hc : a.1.isPrefixOf w ∧ w.length > a.1.length ∧
        SentenceValidator.memD D (SentenceValidator.strip_suffixes w).1 =
          false ∧
        SentenceValidator.memD D
          (SentenceValidator.strip_suffixes (w.drop a.1.length)).1 = true
    · rw [if_pos hc] at ha
      obtain ⟨-, -, h3, h4⟩ := hc
      cases ha
      exact ⟨h3, h4⟩
    · rw [if_neg hc] at ha
      cases ha
  · intro D w h
    rw [SentenceValidator.possessiveStrip, List.findSome?_eq_none_iff]
    intro a _
    rw [if_neg]
    rintro ⟨-, -, h3, -⟩
    rw [h] at h3
    cases h3

/-- Witness for claim C6: with the lexicon containing only dom, the
possessive fā is stripped from fādom (whose own root is unknown); with the
lexicon containing fādom itself, nothing is stripped. -/
theorem claim6_witness :
    (SentenceValidator.memD [['d', 'o', 'm']]
        (SentenceValidator.strip_suffixes ['f', 'ā', 'd', 'o', 'm']).1 =
          false ∧
      SentenceValidator.memD [['d', 'o', 'm']]
        (SentenceValidator.strip_suffixes ['d', 'o', 'm']).1 = true) ∧
    SentenceValidator.possessiveStrip [['f', 'ā', 'd', 'o', 'm']]
      ['f', 'ā', 'd', 'o', 'm'] = none :=
  ⟨claim6_possessive_rule.1 [['d', 'o', 'm']] ['f', 'ā', 'd', 'o', 'm']
      ['f', 'ā'] ['d', 'o', 'm'] (by decide),
    claim6_possessive_rule.2 [['f', 'ā', 'd', 'o', 'm']]
      ['f', 'ā', 'd', 'o', 'm'] (by decide)⟩

/-- Claim C4, counterexample: a gender-variant input both of whose variants
contain the forbidden glottal-a sequence.  Its normalized form contains the
forbidden sequence, yet the result's syllables field is the nonempty list
of variants (the variant branch splits before the forbidden-sequence check
runs), contradicting the claim that such words yield no syllables. -/
theorem claim4_counterexample :
    containsSub [glottal, 'a']
        (normalize [glottal, 'a', ' ', '/', ' ', glottal, 'a']) = true ∧
      (validate_word [glottal, 'a', ' ', '/', ' ', glottal, 'a']
          true).syllables ≠ [] := by decide

/-- Claim C4, amended: for every word that is not a gender-variant form
(no " / " separator), if its normalized form contains the ejective-glottal
sequence or the glottal-a sequence, validate_word returns valid false,
with no syllables, no syllable structures, and exactly one
forbidden-sequence error (in particular no phoneme-membership and no
syllable-validation errors). -/
theorem claim4_amended (w : Str) (hnv : containsSub sepStr w = false)
    (hforb : containsSub ['^', glottal] (normalize w) = true ∨
      containsSub [glottal, 'a'] (normalize w) = true) :
    (validate_word w true).valid = false ∧
      (validate_word w true).syllables = [] ∧
      (validate_word w true).syllableStructures = [] ∧
      ((validate_word w true).errors =
          ["Ejective marker cannot precede glottal marker"] ∨
        (validate_word w true).errors =
          ["Glottal marker cannot precede the vowel a"]) := by
  have hw : validate_word w true = validate_word_core w true := by
    rw [validate_word, if_neg]
    rw [hnv]
    exact Bool.false_ne_true
  rw [hw]
  by_cases h1 : containsSub ['^', glottal] (normalize w) = true
  · simp [validate_word_core, h1]
  · rcases hforb with h | h2
    · exact absurd h h1
    · simp [validate_word_core, h1, h2]

/-- Witness for claim C4 at the input k^ followed by the glottal marker and
e, whose normalized form contains the ejective-glottal sequence. -/
theorem claim4_witness :
    containsSub sepStr ['k', '^', glottal, 'e'] = false ∧
      ((validate_word ['k', '^', glottal, 'e'] true).valid = false ∧
        (validate_word ['k', '^', glottal, 'e'] true).syllables = [] ∧
        (validate_word ['k', '^', glottal, 'e'] true).syllableStructures =
          [] ∧
        ((validate_word ['k', '^', glottal, 'e'] true).errors =
            ["Ejective marker cannot precede glottal marker"] ∨
          (validate_word ['k', '^', glottal, 'e'] true).errors =
            ["Glottal marker cannot precede the vowel a"])) :=
  ⟨by decide,
    claim4_amended ['k', '^', glottal, 'e'] (by decide) (Or.inl (by decide))⟩

/-- Stable insertion permutes: the result is the new element plus the old
list. -/
theorem insertStable_perm {α : Type} (le : α → α → Bool) (x : α) :
    ∀ l : List α, List.Perm (insertStable le x l) (x :: l) := by
  intro l
  induction l with
  | nil => simp [insertStable]
  | cons y ys ih =>
    rw [insertStable]
    split_ifs
    · exact (ih.cons y).trans (List.Perm.swap x y ys)
    · exact List.Perm.refl _

/-- The stable sort permutes its input. -/
theorem sortStable_perm {α : Type} (le : α → α → Bool) (l : List α) :
    List.Perm (sortStable le l) l := by
  have key : ∀ (l acc : List α),
      List.Perm (l.foldl (fun acc x => insertStable le x acc) acc) (acc ++ l) := by
    intro l
    induction l with
    | nil => intro acc; simp
    | cons x xs ih =>
      intro acc
      rw [List.foldl_cons]
      refine (ih (insertStable le x acc)).trans ?_
      exact ((insertStable_perm le x acc).append_right xs).trans
        List.perm_middle.symm
  simpa [sortStable] using key l []

/-- Membership in the stable sort output. -/
theorem mem_sortStable {α : Type} (le : α → α → Bool) (l : List α) (a : α) :
    a ∈ sortStable le l ↔ a ∈ l :=
  List.Perm.mem_iff (sortStable_perm le l)

/-- The per-variant filter of check_similarity produces a record exactly for
a non-identical variant within the threshold with both lengths above two. -/
theorem simrec_some (normalized : Str) (thr : Nat) (eng : Str) (v : Str)
    (r : SimilarRecord) :
    (if v = normalized then none
      else
        if edit_distance normalized v ≤ thr ∧ normalized.length > 2 ∧
            v.length > 2 then
          some (⟨v, eng, edit_distance normalized v⟩ : SimilarRecord)
        else none) = some r ↔
      r.word = v ∧ r.meaning = eng ∧ r.word ≠ normalized ∧
        r.distance = edit_distance normalized r.word ∧
        r.distance ≤ thr ∧ 2 < normalized.length ∧ 2 < r.word.length := by
  rcases r with ⟨w0, m0, d0⟩
  by_cases h1 : v = normalized
  · simp only [if_pos h1]
    constructor
    · intro h; exact Option.noConfusion h
    · rintro ⟨rfl, rfl, hne, -⟩
      exact absurd h1 hne
  · by_cases h2 : edit_distance normalized v ≤ thr ∧ normalized.length > 2 ∧
        v.length > 2
    · simp only [if_neg h1, if_pos h2, Option.some_inj]
      constructor
      · intro he
        cases he
        exact ⟨rfl, rfl, h1, rfl, h2.1, h2.2.1, h2.2.2⟩
      · rintro ⟨rfl, rfl, -, hd, -, -, -⟩
        rw [hd]
    · simp only [if_neg h1, if_neg h2]
      constructor
      · intro h; exact Option.noConfusion h
      · rintro ⟨rfl, rfl, -, hd, hle, hn2, hv2⟩
        exact absurd ⟨hd ▸ hle, hn2, hv2⟩ h2

/-- Claim C5, counterexample: with the lexicon entry la and the query lo,
the non-identical variant la sits at edit distance 1, within the threshold
2, yet the report is empty, because the source additionally requires both
the normalized query and the variant to be longer than two characters —
a condition the claim omits. -/
theorem claim5_counterexample :
    (check_similarity [⟨['l', 'a'], ['g']⟩] ['l', 'o'] 2).similarWords = [] ∧
      edit_distance (normalize ['l', 'o']) ['l', 'a'] = 1 ∧
      normalize ['l', 'o'] ≠ ['l', 'a'] ∧
      ['l', 'a'] ∈ entryVariants (['l', 'a'] : Str) := by decide

/-- Claim C5, amended: check_similarity reports exactly the non-identical
gender-expanded variants whose edit distance from the normalized query is
at or below the threshold and for which both the normalized query and the
variant are longer than two characters, each with its entry's meaning and
its distance; and has_conflicts holds exactly when some reported variant
is at distance 1. -/
theorem claim5_amended (words : List DictEntry) (word : Str) (threshold : Nat) :
    (∀ r : SimilarRecord,
      r ∈ (check_similarity words word threshold).similarWords ↔
        ∃ e ∈ words, r.word ∈ entryVariants e.nyrakai ∧
          r.meaning = e.english ∧ r.word ≠ normalize word ∧
          r.distance = edit_distance (normalize word) r.word ∧
          r.distance ≤ threshold ∧
          2 < (normalize word).length ∧ 2 < r.word.length) ∧
    ((check_similarity words word threshold).hasConflicts = true ↔
      ∃ s ∈ (check_similarity words word threshold).similarWords,
        s.distance = 1) := by
  constructor
  · intro r
    constructor
    · intro hr
      simp only [check_similarity] at hr
      rw [mem_sortStable, List.mem_flatten] at hr
      obtain ⟨l, hl, hrl⟩ := hr
      rw [List.mem_map] at hl
      obtain ⟨e, he, rfl⟩ := hl
      rw [List.mem_filterMap] at hrl
      obtain ⟨v, hv, hsome⟩ := hrl
      rw [simrec_some] at hsome
      obtain ⟨h1, h2, h3, h4, h5, h6, h7⟩ := hsome
      exact ⟨e, he, h1 ▸ hv, h2, h3, h4, h5, h6, h7⟩
    · rintro ⟨e, he, hv, h2, h3, h4, h5, h6, h7⟩
      simp only [check_similarity]
      rw [mem_sortStable, List.mem_flatten]
      refine ⟨_, List.mem_map_of_mem _ he, ?_⟩
      rw [List.mem_filterMap]
      exact ⟨r.word, hv, (simrec_some _ _ _ _ _).mpr
        ⟨rfl, h2, h3, h4, h5, h6, h7⟩⟩
  · simp only [check_similarity]
    constructor
    · intro h
      have hp := of_decide_eq_true h
      obtain ⟨s, hs⟩ := List.exists_mem_of_length_pos hp
      have hm := List.mem_filter.mp hs
      exact ⟨s, hm.1, by simpa using hm.2⟩
    · rintro ⟨s, hs, hd1⟩
      apply decide_eq_true
      exact List.length_pos_of_mem
        (List.mem_filter.mpr ⟨hs, by simpa using hd1⟩)

/-- A fold of collision steps over affixes none of which collide leaves the
accumulator unchanged. -/
theorem foldl_collide_none (ew : List (Str × EWInfo)) (root : Str × Str)
    (ct : String) (mk : Str × String → Str) (l : List (Str × String))
    (h : ∀ p ∈ l, collideStep ew root ct p (mk p) = ([], [])) :
    ∀ acc : List CollisionData × List CollisionData,
      l.foldl (fun a affix =>
        let r := collideStep ew root ct affix (mk affix)
        (a.1 ++ r.1, a.2 ++ r.2)) acc = acc := by
  induction l with
  | nil => intro acc; rfl
  | cons p ps ih =>
    intro acc
    rw [List.foldl_cons]
    have hp := h p (List.mem_cons_self p ps)
    simp only [hp, List.append_nil]
    exact ih (fun q hq => h q (List.mem_cons_of_mem p hq)) acc

/-- A list never equals a two-element extension of itself. -/
theorem beq_cons_cons_self (X : Str) (a b : Char) :
    (X == a :: b :: X) = false := by
  rw [beq_eq_false_iff_ne]
  intro hEq
  have := congrArg List.length hEq
  simp at this
  omega

/-- Claim C7: over a lexicon containing a root entry X with gloss g1 and
one unrelated entry (different gloss, no recorded derivation provenance)
whose surface form is the negation prefix za concatenated with X,
check_derived_collisions reports exactly one accidental collision — the
za+X prefix derivation of X — and no intentional derivations.  The
hypothesis hsfx rules out the degenerate surfaces for which za+X also
spells X followed by a registered suffix. -/
theorem claim7_za_collision (X g1 g2 : Str)
    (hX : X ≠ [])
    (hsep : containsSub sepStr X = false)
    (hg : g2 ≠ g1)
    (hsfx : ∀ s ∈ AFFIX_SFX.map Prod.fst, ['z', 'a'] ++ X ≠ X ++ s) :
    (check_derived_collisions
        [⟨X, g1, true, none⟩,
          ⟨['z', 'a'] ++ X, g2, false, none⟩]).collisions =
      [⟨"prefix", X, g1, ['z', 'a'], "negation/opposite", ['z', 'a'] ++ X,
          g2, false⟩] ∧
    (check_derived_collisions
        [⟨X, g1, true, none⟩,
          ⟨['z', 'a'] ++ X, g2, false, none⟩]).intentional = [] ∧
    (check_derived_collisions
        [⟨X, g1, true, none⟩,
          ⟨['z', 'a'] ++ X, g2, false, none⟩]).collisionCount = 1 := by
  simp only [List.cons_append, List.nil_append] at hsfx ⊢
  have hsep2 : containsSub sepStr ('z' :: 'a' :: X) = false := by
    simp [containsSub, sepStr, List.isPrefixOf]
    simpa [sepStr] using hsep
  set ew : List (Str × EWInfo) :=
    [('z' :: 'a' :: X, ⟨g2, none, false⟩), (X, ⟨g1, none, false⟩)] with hewd
  have hew : buildExisting
      [⟨X, g1, true, none⟩, ⟨'z' :: 'a' :: X, g2, false, none⟩] = ew := by
    simp [buildExisting, ewPairs, hsep, hsep2, hewd]
  have hroots : rootsOf
      [⟨X, g1, true, none⟩, ⟨'z' :: 'a' :: X, g2, false, none⟩] =
      [(X, g1)] := by
    simp [rootsOf, hX, hsep, hsep2]
  have hlook_za : lookupEW ew ('z' :: 'a' :: X) = some ⟨g2, none, false⟩ := by
    simp [lookupEW, hewd]
  have hstep_za :
      collideStep ew (X, g1) "prefix" (['z', 'a'], "negation/opposite")
        ('z' :: 'a' :: X) =
      ([⟨"prefix", X, g1, ['z', 'a'], "negation/opposite", 'z' :: 'a' :: X,
          g2, false⟩], []) := by
    rw [collideStep, hlook_za]
    simp [hg]
  have hlook_pfx_none : ∀ (a b : Char), (a = 'z' → b ≠ 'a') →
      lookupEW ew (a :: b :: X) = none := by
    intro a b hab
    have h1 : (('z' :: 'a' :: X : Str) == a :: b :: X) = false := by
      rw [beq_eq_false_iff_ne]
      intro hEq
      injection hEq with hz hEq2
      injection hEq2 with ha _
      exact hab hz.symm ha.symm
    have h2 : ((X : Str) == a :: b :: X) = false := beq_cons_cons_self X a b
    simp [lookupEW, hewd, List.find?, h1, h2]
  have hstep_pfx_none : ∀ (a b : Char) (m : String), (a = 'z' → b ≠ 'a') →
      collideStep ew (X, g1) "prefix" ([a, b], m) (a :: b :: X) =
        ([], []) := by
    intro a b m hab
    rw [collideStep, hlook_pfx_none a b hab]
  have hsfx_none : ∀ p ∈ AFFIX_SFX,
      collideStep ew (X, g1) "suffix" p (X ++ p.1) = ([], []) := by
    intro p hp
    have hp1 : p.1 ≠ [] := by
      have hq : ∀ q ∈ AFFIX_SFX, q.1 ≠ [] := by decide
      exact hq p hp
    have h1 : (('z' :: 'a' :: X : Str) == X ++ p.1) = false := by
      rw [beq_eq_false_iff_ne]
      exact hsfx p.1 (List.mem_map_of_mem Prod.fst hp)
    have h2 : ((X : Str) == X ++ p.1) = false := by
      rw [beq_eq_false_iff_ne]
      intro hEq
      have hl := congrArg List.length hEq
      simp at hl
      exact hp1 hl
    have hlook : lookupEW ew (X ++ p.1) = none := by
      simp [lookupEW, hewd, List.find?, h1, h2]
    rw [collideStep, hlook]
  simp only [check_derived_collisions, hew, hroots]
  rw [List.foldl_cons, List.foldl_nil]
  rw [foldl_collide_none ew (X, g1) "suffix" (fun p => X ++ p.1) AFFIX_SFX
    hsfx_none]
  simp only [AFFIX_PFX, List.foldl_cons, List.foldl_nil, List.cons_append,
    List.nil_append]
  rw [hstep_za, hstep_pfx_none 'f' 'ē' "reversal/undo" (fun h => by cases h),
    hstep_pfx_none 'n' glottal "abstract/truth quality" (fun h => by cases h)]
  simp

/-- Witness for claim C7: lexicon with root mel (gloss sun) and unrelated
entry zamel (gloss dark); exactly the za+mel collision is reported. -/
theorem claim7_witness :
    (check_derived_collisions
        [⟨['m', 'e', 'l'], ['s', 'u', 'n'], true, none⟩,
          ⟨['z', 'a', 'm', 'e', 'l'], ['d', 'a', 'r', 'k'], false,
            none⟩]).collisions =
      [⟨"prefix", ['m', 'e', 'l'], ['s', 'u', 'n'], ['z', 'a'],
          "negation/opposite", ['z', 'a', 'm', 'e', 'l'], ['d', 'a', 'r', 'k'],
          false⟩] ∧
    (check_derived_collisions
        [⟨['m', 'e', 'l'], ['s', 'u', 'n'], true, none⟩,
          ⟨['z', 'a', 'm', 'e', 'l'], ['d', 'a', 'r', 'k'], false,
            none⟩]).intentional = [] ∧
    (check_derived_collisions
        [⟨['m', 'e', 'l'], ['s', 'u', 'n'], true, none⟩,
          ⟨['z', 'a', 'm', 'e', 'l'], ['d', 'a', 'r', 'k'], false,
            none⟩]).collisionCount = 1 :=
  claim7_za_collision ['m', 'e', 'l'] ['s', 'u', 'n'] ['d', 'a', 'r', 'k']
    (by decide) (by decide) (by decide) (by decide)

/-- Every character of a replacement result comes from the input or from
the replacement string. -/
theorem mem_replaceAllGo (pat rep : Str) :
    ∀ (fuel : Nat) (s : Str) (c : Char),
      c ∈ replaceAllGo pat rep fuel s → c ∈ s ∨ c ∈ rep := by
  intro fuel
  induction fuel with
  | zero =>
    intro s c h
    cases s with
    | nil => simp [replaceAllGo] at h
    | cons a t => exact Or.inl h
  | succ fuel ih =>
    intro s c h
    cases s with
    | nil => simp [replaceAllGo] at h
    | cons a t =>
      rw [replaceAllGo] at h
      split_ifs at h with hcond
      · rw [List.mem_append] at h
        rcases h with h | h
        · exact Or.inr h
        · rcases ih _ c h with h2 | h2
          · exact Or.inl (List.mem_of_mem_drop h2)
          · exact Or.inr h2
      · rcases List.mem_cons.mp h with rfl | h2
        · exact Or.inl (List.mem_cons_self _ _)
        · rcases ih t c h2 with h3 | h3
          · exact Or.inl (List.mem_cons_of_mem _ h3)
          · exact Or.inr h3

/-- A nonempty string sharing no character with the replacement that is a
prefix of a replacement result was already a prefix of the input. -/
theorem prefix_replaceAllGo (pat rep : Str) (hrep : rep ≠ []) :
    ∀ (fuel : Nat) (s u : Str), u ≠ [] → (∀ c ∈ u, c ∉ rep) →
      u <+: replaceAllGo pat rep fuel s → u <+: s := by
  intro fuel
  induction fuel with
  | zero =>
    intro s u _ _ hpre
    cases s with
    | nil => simpa [replaceAllGo] using hpre
    | cons a t => exact hpre
  | succ fuel ih =>
    intro s u hu hdisj hpre
    cases s with
    | nil =>
      simp only [replaceAllGo] at hpre
      exact absurd (List.prefix_nil.mp hpre) hu
    | cons a t =>
      rw [replaceAllGo] at hpre
      split_ifs at hpre with hcond
      · rcases rep with _ | ⟨r0, r'⟩
        · exact absurd rfl hrep
        · rcases u with _ | ⟨u0, u'⟩
          · exact absurd rfl hu
          · rw [List.cons_append] at hpre
            have h0 : u0 = r0 := (List.cons_prefix_cons.mp hpre).1
            have hmem : u0 ∈ r0 :: r' := by
              rw [h0]; exact List.mem_cons_self _ _
            exact absurd hmem (hdisj u0 (List.mem_cons_self u0 u'))
      · rcases u with _ | ⟨u0, u'⟩
        · exact absurd rfl hu
        · obtain ⟨h0, hpre'⟩ := List.cons_prefix_cons.mp hpre
          subst h0
          by_cases hu' : u' = []
          · subst hu'
            exact List.cons_prefix_cons.mpr ⟨rfl, List.nil_prefix⟩
          · exact List.cons_prefix_cons.mpr ⟨rfl,
              ih t u' hu' (fun c hc => hdisj c (List.mem_cons_of_mem _ hc))
                hpre'⟩

/-- Prepending characters none of which occur in the pattern does not
create or destroy occurrences of the pattern. -/
theorem containsSub_append_left (p : Str) (hp : p ≠ []) :
    ∀ (rep R : Str), (∀ c ∈ rep, c ∉ p) →
      containsSub p (rep ++ R) = containsSub p R := by
  intro rep
  induction rep with
  | nil => intro R _; rw [List.nil_append]
  | cons r0 r' ih =>
    intro R hdisj
    rw [List.cons_append, containsSub]
    have h1 : p.isPrefixOf (r0 :: (r' ++ R)) = false := by
      rcases p with _ | ⟨p0, p'⟩
      · exact absurd rfl hp
      · cases hbe : (p0 == r0) with
        | false => simp [List.isPrefixOf, hbe]
        | true =>
          have hq : p0 = r0 := eq_of_beq hbe
          have hmem : r0 ∈ p0 :: p' := by
            rw [← hq]; exact List.mem_cons_self p0 p'
          exact absurd hmem (hdisj r0 (List.mem_cons_self r0 r'))
    rw [h1, Bool.false_or]
    exact ih R (fun c hc => hdisj c (List.mem_cons_of_mem _ hc))

/-- Dropping a prefix cannot introduce occurrences of a pattern. -/
theorem containsSub_drop (p : Str) :
    ∀ (s : Str) (n : Nat), containsSub p s = false →
      containsSub p (s.drop n) = false := by
  intro s
  induction s with
  | nil => intro n h; simpa using h
  | cons a t ih =>
    intro n h
    cases n with
    | zero => simpa using h
    | succ n =>
      simp only [containsSub, Bool.or_eq_false_iff] at h
      rw [List.drop_succ_cons]
      exact ih n h.2

/-- A pattern that is a prefix of a string is contained in it. -/
theorem containsSub_of_prefix {p : Str} {a : Char} {t : Str}
    (h : p <+: (a :: t)) : containsSub p (a :: t) = true := by
  rw [containsSub, List.isPrefixOf_iff_prefix.mpr h, Bool.true_or]

/-- If a nonempty pattern sharing no character with the replacement is a
prefix of a character consed onto a replacement result, it was a prefix of
that character consed onto the original input. -/
theorem prefix_cons_replaceAllGo (pat rep p : Str) (hp : p ≠ [])
    (hrep : rep ≠ []) (hdisj : ∀ c ∈ rep, c ∉ p) (fuel : Nat) (a : Char)
    (t : Str) (hpre : p <+: (a :: replaceAllGo pat rep fuel t)) :
    p <+: (a :: t) := by
  rcases p with _ | ⟨p0, p'⟩
  · exact absurd rfl hp
  · obtain ⟨h0, hpre'⟩ := List.cons_prefix_cons.mp hpre
    subst h0
    by_cases hp' : p' = []
    · subst hp'
      exact List.cons_prefix_cons.mpr ⟨rfl, List.nil_prefix⟩
    · refine List.cons_prefix_cons.mpr ⟨rfl, ?_⟩
      refine prefix_replaceAllGo pat rep hrep fuel t p' hp' ?_ hpre'
      intro c hc hcrep
      exact hdisj c hcrep (List.mem_cons_of_mem _ hc)

/-- After replacing a nonempty pattern by a nonempty replacement sharing no
character with it, the pattern no longer occurs. -/
theorem replaceAllGo_no_self (pat rep : Str) (hpat : pat ≠ [])
    (hrep : rep ≠ []) (hdisj : ∀ c ∈ rep, c ∉ pat) :
    ∀ (fuel : Nat) (s : Str), s.length ≤ fuel →
      containsSub pat (replaceAllGo pat rep fuel s) = false := by
  intro fuel
  induction fuel with
  | zero =>
    intro s hlen
    have hs : s = [] := by cases s with
      | nil => rfl
      | cons a t => simp at hlen
    subst hs
    rcases pat with _ | ⟨p0, p'⟩
    · exact absurd rfl hpat
    · simp [replaceAllGo, containsSub, List.isPrefixOf]
  | succ fuel ih =>
    intro s hlen
    cases s with
    | nil =>
      rcases pat with _ | ⟨p0, p'⟩
      · exact absurd rfl hpat
      · simp [replaceAllGo, containsSub, List.isPrefixOf]
    | cons a t =>
      rw [replaceAllGo]
      split_ifs with hcond
      · rw [containsSub_append_left pat hpat rep _ hdisj]
        refine ih _ ?_
        have h1 : 1 ≤ pat.length :=
          List.length_pos_of_ne_nil hcond.1
        simp only [List.length_cons] at hlen
        simp only [List.length_drop, List.length_cons]
        omega
      · rw [containsSub]
        have h2 : containsSub pat (replaceAllGo pat rep fuel t) = false := by
          refine ih t ?_
          simp only [List.length_cons] at hlen
          omega
        rw [h2, Bool.or_false]
        cases hpre : pat.isPrefixOf (a :: replaceAllGo pat rep fuel t) with
        | false => rfl
        | true =>
          have hP := prefix_cons_replaceAllGo pat rep pat hpat hrep hdisj
            fuel a t (List.isPrefixOf_iff_prefix.mp hpre)
          exact absurd ⟨hpat, List.isPrefixOf_iff_prefix.mpr hP⟩ hcond

/-- Replacing one pattern preserves the absence of any pattern sharing no
character with the replacement. -/
theorem replaceAllGo_no_other (pat rep p : Str) (hp : p ≠ [])
    (hrep : rep ≠ []) (hdisj : ∀ c ∈ rep, c ∉ p) :
    ∀ (fuel : Nat) (s : Str), containsSub p s = false →
      containsSub p (replaceAllGo pat rep fuel s) = false := by
  intro fuel
  induction fuel with
  | zero =>
    intro s hs
    cases s with
    | nil => simpa [replaceAllGo] using hs
    | cons a t => exact hs
  | succ fuel ih =>
    intro s hs
    cases s with
    | nil => simpa [replaceAllGo] using hs
    | cons a t =>
      rw [replaceAllGo]
      split_ifs with hcond
      · rw [containsSub_append_left p hp rep _ hdisj]
        exact ih _ (containsSub_drop p _ _ hs)
      · rw [containsSub]
        simp only [containsSub, Bool.or_eq_false_iff] at hs
        rw [ih t hs.2, Bool.or_false]
        cases hpre : p.isPrefixOf (a :: replaceAllGo pat rep fuel t) with
        | false => rfl
        | true =>
          have hP := prefix_cons_replaceAllGo pat rep p hp hrep hdisj
            fuel a t (List.isPrefixOf_iff_prefix.mp hpre)
          have hT := List.isPrefixOf_iff_prefix.mpr hP
          rw [hs.1] at hT
          cases hT

/-- Replacing a pattern that does not occur is the identity. -/
theorem replaceAllGo_id (pat rep : Str) :
    ∀ (fuel : Nat) (s : Str), containsSub pat s = false →
      replaceAllGo pat rep fuel s = s := by
  intro fuel
  induction fuel with
  | zero =>
    intro s _
    cases s with
    | nil => rfl
    | cons a t => rfl
  | succ fuel ih =>
    intro s hs
    cases s with
    | nil => rfl
    | cons a t =>
      simp only [containsSub, Bool.or_eq_false_iff] at hs
      rw [replaceAllGo]
      rw [if_neg]
      · rw [ih t hs.2]
      · rintro ⟨hne, hpre⟩
        rw [hpre] at hs
        exact absurd hs.1 (by simp)

/-- Splitting a pass list splits the fold. -/
theorem applyPasses_append (l1 l2 : List (Str × Str)) (s : Str) :
    applyPasses (l1 ++ l2) s = applyPasses l2 (applyPasses l1 s) := by
  simp [applyPasses, List.foldl_append]

/-- Every character of a pass-pipeline result comes from the input or from
one of the replacement strings. -/
theorem mem_applyPasses :
    ∀ (ps : List (Str × Str)) (s : Str) (c : Char),
      c ∈ applyPasses ps s → c ∈ s ∨ ∃ pr ∈ ps, c ∈ pr.2 := by
  intro ps
  induction ps with
  | nil => intro s c h; exact Or.inl h
  | cons q qs ih =>
    intro s c h
    rw [applyPasses, List.foldl_cons] at h
    rcases ih _ c h with h2 | ⟨pr, hpr, hcr⟩
    · rcases mem_replaceAllGo q.1 q.2 _ _ c h2 with h3 | h3
      · exact Or.inl h3
      · exact Or.inr ⟨q, List.mem_cons_self _ _, h3⟩
    · exact Or.inr ⟨pr, List.mem_cons_of_mem _ hpr, hcr⟩

/-- A pass pipeline whose replacement strings are nonempty and avoid the
characters of a pattern preserves the pattern's absence. -/
theorem applyPasses_no_other (p : Str) (hp : p ≠ []) :
    ∀ (ps : List (Str × Str)) (s : Str), containsSub p s = false →
      (∀ pr ∈ ps, pr.2 ≠ [] ∧ ∀ c ∈ pr.2, c ∉ p) →
      containsSub p (applyPasses ps s) = false := by
  intro ps
  induction ps with
  | nil => intro s hs _; exact hs
  | cons q qs ih =>
    intro s hs hgood
    rw [applyPasses, List.foldl_cons]
    have hq := hgood q (List.mem_cons_self _ _)
    refine ih _ ?_ (fun pr hpr => hgood pr (List.mem_cons_of_mem _ hpr))
    exact replaceAllGo_no_other q.1 q.2 p hp hq.1 hq.2 _ s hs

/-- A pass pipeline none of whose patterns occurs in the input is the
identity. -/
theorem applyPasses_id :
    ∀ (ps : List (Str × Str)) (s : Str),
      (∀ pr ∈ ps, containsSub pr.1 s = false) → applyPasses ps s = s := by
  intro ps
  induction ps with
  | nil => intro s _; rfl
  | cons q qs ih =>
    intro s hs
    rw [applyPasses, List.foldl_cons, replaceAll,
      replaceAllGo_id q.1 q.2 _ s (hs q (List.mem_cons_self _ _))]
    exact ih s (fun pr hpr => hs pr (List.mem_cons_of_mem _ hpr))

/-- Lowercasing is idempotent character by character. -/
theorem pyLower_idem (c : Char) : pyLower (pyLower c) = pyLower c := by
  simp only [pyLower]
  cases h : lowerPairs.find? (fun p => p.1 == c) with
  | none => simp [h]
  | some pr =>
    have hmem : pr ∈ lowerPairs := List.mem_of_find?_eq_some h
    have hnone : ∀ q ∈ lowerPairs,
        lowerPairs.find? (fun p => p.1 == q.2) = none := by decide
    simp [h, hnone pr hmem]

/-- After one pass of normalize, none of its rewrite patterns occurs. -/
theorem normalize_no_patterns (w : Str) :
    ∀ pr ∈ normalizePasses, containsSub pr.1 (normalize w) = false := by
  intro pr hmem
  obtain ⟨pre, post, hsplit⟩ := List.append_of_mem hmem
  have hgood : ∀ q ∈ normalizePasses,
      q.1 ≠ [] ∧ q.2 ≠ [] ∧ ∀ c ∈ q.2, c ∉ q.1 := by decide
  have hpair : List.Pairwise (fun a b => ∀ c ∈ b.2, c ∉ a.1)
      normalizePasses := by decide
  have hpost : ∀ q ∈ post, ∀ c ∈ q.2, c ∉ pr.1 := by
    rw [hsplit] at hpair
    exact (List.pairwise_cons.mp (List.pairwise_append.mp hpair).2.1).1
  have hthis : normalize w =
      applyPasses post
        (replaceAll pr.1 pr.2 (applyPasses pre (lowerStr w))) := by
    show applyPasses normalizePasses (lowerStr w) = _
    rw [hsplit, applyPasses_append, applyPasses, List.foldl_cons]
    rfl
  rw [hthis]
  have hprg := hgood pr hmem
  refine applyPasses_no_other pr.1 hprg.1 post _ ?_ ?_
  · rw [replaceAll]
    exact replaceAllGo_no_self pr.1 pr.2 hprg.1 hprg.2.1 hprg.2.2 _ _
      (Nat.le_refl _)
  · intro q hq
    have hqmem : q ∈ normalizePasses := by
      rw [hsplit]
      exact List.mem_append_right _ (List.mem_cons_of_mem _ hq)
    exact ⟨(hgood q hqmem).2.1, hpost q hq⟩

/-- The output of normalize is already lowercase. -/
theorem lowerStr_normalize (w : Str) :
    lowerStr (normalize w) = normalize w := by
  have hfix2 : ∀ c ∈ normalize w, pyLower c = c := by
    intro c hc
    rcases mem_applyPasses normalizePasses (lowerStr w) c hc with h | ⟨pr, hpr, hcr⟩
    · obtain ⟨a, -, rfl⟩ := List.mem_map.mp h
      exact pyLower_idem a
    · have hfix : ∀ q ∈ normalizePasses, ∀ c ∈ q.2, pyLower c = c := by decide
      exact hfix pr hpr c hcr
  rw [lowerStr]
  exact (List.map_congr_left hfix2).trans (List.map_id _)

/-- Claim C2: normalize is idempotent — re-normalizing an already
normalized string is a no-op, for every input string. -/
theorem claim2_normalize_idempotent (x : Str) :
    normalize (normalize x) = normalize x := by
  calc normalize (normalize x)
      = applyPasses normalizePasses (lowerStr (normalize x)) := rfl
    _ = applyPasses normalizePasses (normalize x) := by
        rw [lowerStr_normalize]
    _ = normalize x := applyPasses_id _ _ (normalize_no_patterns x)

/-- The recursive Levenshtein distance to the empty string is the length. -/
theorem lev_nil_right (a : Str) : lev a [] = a.length := by
  cases a with
  | nil => simp [lev]
  | cons x xs => simp [lev]

/-- The recursive Levenshtein distance from the empty string is the
length. -/
theorem lev_nil_left (b : Str) : lev [] b = b.length := by
  simp [lev]

/-- The cons-cons unfolding of lev. -/
theorem lev_cons_cons (x y : Char) (xs ys : Str) :
    lev (x :: xs) (y :: ys) =
      min (lev xs (y :: ys) + 1)
        (min (lev (x :: xs) ys + 1)
          (lev xs ys + (if x = y then 0 else 1))) := by
  rw [lev]

/-- Keeping an equal head costs nothing. -/
theorem lev_le_keep (x : Char) (xs ys : Str) :
    lev (x :: xs) (x :: ys) ≤ lev xs ys := by
  rw [lev_cons_cons]
  refine le_trans (min_le_right _ _) (le_trans (min_le_right _ _) ?_)
  simp

/-- Substituting the head costs at most one. -/
theorem lev_le_subst (x y : Char) (xs ys : Str) :
    lev (x :: xs) (y :: ys) ≤ lev xs ys + 1 := by
  rw [lev_cons_cons]
  refine le_trans (min_le_right _ _) (le_trans (min_le_right _ _) ?_)
  split_ifs <;> omega

/-- Deleting the head costs at most one. -/
theorem lev_le_del (x : Char) (xs ys : Str) :
    lev (x :: xs) ys ≤ lev xs ys + 1 := by
  cases ys with
  | nil => simp [lev_nil_right]
  | cons y ys =>
    rw [lev_cons_cons]
    exact min_le_left _ _

/-- Inserting a head costs at most one. -/
theorem lev_le_ins (y : Char) (xs ys : Str) :
    lev xs (y :: ys) ≤ lev xs ys + 1 := by
  cases xs with
  | nil => simp [lev_nil_left]
  | cons x xs =>
    rw [lev_cons_cons]
    exact le_trans (min_le_right _ _) (min_le_left _ _)

/-- Soundness: every alignment bounds the Levenshtein distance. -/
theorem lev_le_of_aligns {a b : Str} {n : Nat} (h : Aligns a b n) :
    lev a b ≤ n := by
  induction h with
  | nil => simp [lev]
  | keep x h ih => exact le_trans (lev_le_keep _ _ _) ih
  | subst x y h ih =>
    exact le_trans (lev_le_subst _ _ _ _) (Nat.add_le_add_right ih 1)
  | del x h ih =>
    exact le_trans (lev_le_del _ _ _) (Nat.add_le_add_right ih 1)
  | ins y h ih =>
    exact le_trans (lev_le_ins _ _ _) (Nat.add_le_add_right ih 1)

/-- The empty string aligns with any string by insertions. -/
theorem aligns_nil_left : ∀ b : Str, Aligns [] b b.length := by
  intro b
  induction b with
  | nil => exact Aligns.nil
  | cons y ys ih => exact Aligns.ins y ih

/-- Any string aligns with the empty string by deletions. -/
theorem aligns_nil_right : ∀ a : Str, Aligns a [] a.length := by
  intro a
  induction a with
  | nil => exact Aligns.nil
  | cons x xs ih => exact Aligns.del x ih

/-- Completeness: the Levenshtein distance is witnessed by an alignment. -/
theorem aligns_lev : ∀ (n : Nat) (a b : Str), a.length + b.length ≤ n →
    Aligns a b (lev a b) := by
  intro n
  induction n with
  | zero =>
    intro a b hlen
    cases a with
    | cons x xs => simp at hlen
    | nil =>
      cases b with
      | cons y ys => simp at hlen
      | nil =>
        have h0 : lev [] [] = 0 := by simp [lev]
        exact h0 ▸ Aligns.nil
  | succ n ih =>
    intro a b hlen
    cases a with
    | nil => exact lev_nil_left b ▸ aligns_nil_left b
    | cons x xs =>
      cases b with
      | nil => exact lev_nil_right (x :: xs) ▸ aligns_nil_right (x :: xs)
      | cons y ys =>
        simp only [List.length_cons] at hlen
        rw [lev_cons_cons]
        rcases min_cases (lev xs (y :: ys) + 1)
            (min (lev (x :: xs) ys + 1)
              (lev xs ys + (if x = y then 0 else 1))) with ⟨h1, -⟩ | ⟨h1, -⟩
        · rw [h1]
          exact Aligns.del x (ih xs (y :: ys) (by simp; omega))
        · rw [h1]
          rcases min_cases (lev (x :: xs) ys + 1)
              (lev xs ys + (if x = y then 0 else 1)) with ⟨h2, -⟩ | ⟨h2, -⟩
          · rw [h2]
            exact Aligns.ins y (ih (x :: xs) ys (by simp; omega))
          · rw [h2]
            by_cases hxy : x = y
            · rw [if_pos hxy, Nat.add_zero]
              subst hxy
              exact Aligns.keep x (ih xs ys (by omega))
            · rw [if_neg hxy]
              exact Aligns.subst x y (ih xs ys (by omega))

/-- Alignments are symmetric: deletions and insertions swap roles. -/
theorem Aligns.symm {a b : Str} {n : Nat} (h : Aligns a b n) :
    Aligns b a n := by
  induction h with
  | nil => exact Aligns.nil
  | keep x _ ih => exact Aligns.keep x ih
  | subst x y _ ih => exact Aligns.subst y x ih
  | del x _ ih => exact Aligns.ins x ih
  | ins y _ ih => exact Aligns.del y ih

/-- A kept character may be appended at the end of an alignment. -/
theorem Aligns.keep_snoc {a b : Str} {n : Nat} (x : Char)
    (h : Aligns a b n) : Aligns (a ++ [x]) (b ++ [x]) n := by
  induction h with
  | nil => exact Aligns.keep x Aligns.nil
  | keep z _ ih => exact Aligns.keep z ih
  | subst z w _ ih => exact Aligns.subst z w ih
  | del z _ ih => exact Aligns.del z ih
  | ins w _ ih => exact Aligns.ins w ih

/-- A substituted pair may be appended at the end of an alignment. -/
theorem Aligns.subst_snoc {a b : Str} {n : Nat} (x y : Char)
    (h : Aligns a b n) : Aligns (a ++ [x]) (b ++ [y]) (n + 1) := by
  induction h with
  | nil => exact Aligns.subst x y Aligns.nil
  | keep z _ ih => exact Aligns.keep z ih
  | subst z w _ ih => exact Aligns.subst z w ih
  | del z _ ih => exact Aligns.del z ih
  | ins w _ ih => exact Aligns.ins w ih

/-- A deleted character may be appended at the end of an alignment. -/
theorem Aligns.del_snoc {a b : Str} {n : Nat} (x : Char)
    (h : Aligns a b n) : Aligns (a ++ [x]) b (n + 1) := by
  induction h with
  | nil => exact Aligns.del x Aligns.nil
  | keep z _ ih => exact Aligns.keep z ih
  | subst z w _ ih => exact Aligns.subst z w ih
  | del z _ ih => exact Aligns.del z ih
  | ins w _ ih => exact Aligns.ins w ih

/-- An inserted character may be appended at the end of an alignment. -/
theorem Aligns.ins_snoc {a b : Str} {n : Nat} (y : Char)
    (h : Aligns a b n) : Aligns a (b ++ [y]) (n + 1) := by
  induction h with
  | nil => exact Aligns.ins y Aligns.nil
  | keep z _ ih => exact Aligns.keep z ih
  | subst z w _ ih => exact Aligns.subst z w ih
  | del z _ ih => exact Aligns.del z ih
  | ins w _ ih => exact Aligns.ins w ih

/-- Alignments transfer to reversed strings. -/
theorem Aligns.rev {a b : Str} {n : Nat} (h : Aligns a b n) :
    Aligns a.reverse b.reverse n := by
  induction h with
  | nil => exact Aligns.nil
  | keep x _ ih => simpa [List.reverse_cons] using ih.keep_snoc x
  | subst x y _ ih => simpa [List.reverse_cons] using ih.subst_snoc x y
  | del x _ ih => simpa [List.reverse_cons] using ih.del_snoc x
  | ins y _ ih => simpa [List.reverse_cons] using ih.ins_snoc y

/-- The Levenshtein distance of the reversed strings. -/
theorem lev_rev (a b : Str) : lev a.reverse b.reverse = lev a b := by
  apply le_antisymm
  · exact lev_le_of_aligns
      (Aligns.rev (aligns_lev (a.length + b.length) a b (Nat.le_refl _)))
  · have h := Aligns.rev (aligns_lev (a.reverse.length + b.reverse.length)
      a.reverse b.reverse (Nat.le_refl _))
    simpa using lev_le_of_aligns h

/-- Symmetry of the Levenshtein distance. -/
theorem lev_symm (a b : Str) : lev a b = lev b a := by
  apply le_antisymm
  · exact lev_le_of_aligns
      (Aligns.symm (aligns_lev (b.length + a.length) b a (Nat.le_refl _)))
  · exact lev_le_of_aligns
      (Aligns.symm (aligns_lev (a.length + b.length) a b (Nat.le_refl _)))

/-- The last-character recurrence of the Levenshtein distance, the one the
dynamic program of edit_distance steps by. -/
theorem lev_snoc (a b : Str) (x y : Char) :
    lev (a ++ [x]) (b ++ [y]) =
      min (lev a (b ++ [y]) + 1)
        (min (lev (a ++ [x]) b + 1)
          (lev a b + (if x = y then 0 else 1))) := by
  have h1 : lev (a ++ [x]) (b ++ [y]) =
      lev (x :: a.reverse) (y :: b.reverse) := by
    rw [← lev_rev]
    simp
  have h2 : lev a (b ++ [y]) = lev a.reverse (y :: b.reverse) := by
    rw [← lev_rev a (b ++ [y])]
    simp
  have h3 : lev (a ++ [x]) b = lev (x :: a.reverse) b.reverse := by
    rw [← lev_rev (a ++ [x]) b]
    simp
  have h4 : lev a b = lev a.reverse b.reverse := (lev_rev a b).symm
  rw [h1, lev_cons_cons, ← h2, ← h3, ← h4]

/-- A scanl is its seed followed by its tail. -/
theorem scanl_eq_cons (f : Str → Char → Str) (b : Str) (l : Str) :
    List.scanl f b l = b :: (List.scanl f b l).tail := by
  cases l <;> simp

/-- The inner DP loop maps the previous row of prefix distances to the next
row: processing character c1 after prefix a turns the row of distances
from a into the row of distances from a ++ [c1], position by position. -/
theorem rowAux_spec (c1 : Char) (a : Str) :
    ∀ (rest done : Str),
      rowAux c1 rest
        ((List.scanl (fun acc c => acc ++ [c]) done rest).map (lev a))
        (lev (a ++ [c1]) done) =
      ((List.scanl (fun acc c => acc ++ [c]) done rest).tail).map
        (lev (a ++ [c1])) := by
  intro rest
  induction rest with
  | nil => intro done; simp [rowAux]
  | cons c2 cs ih =>
    intro done
    rw [List.scanl_cons, List.singleton_append, List.map_cons,
      scanl_eq_cons (fun acc c => acc ++ [c]) (done ++ [c2]) cs,
      List.map_cons, rowAux]
    rw [← List.map_cons,
      ← scanl_eq_cons (fun acc c => acc ++ [c]) (done ++ [c2]) cs]
    have hv : min (lev a (done ++ [c2]) + 1)
        (min (lev (a ++ [c1]) done + 1)
          (lev a done + (if c1 = c2 then 0 else 1))) =
        lev (a ++ [c1]) (done ++ [c2]) := (lev_snoc a done c1 c2).symm
    rw [hv, ih (done ++ [c2])]
    rw [List.tail_cons]
    conv_rhs => rw [scanl_eq_cons (fun acc c => acc ++ [c]) (done ++ [c2]) cs]
    rw [List.map_cons]

/-- The outer DP loop: after consuming rest of the first string starting
from processed prefix acc, the row holds the distances from acc ++ rest to
every prefix of the second string. -/
theorem dpLoop_spec (s2 : Str) :
    ∀ (rest acc : Str),
      dpLoop s2 rest
        ((List.scanl (fun a c => a ++ [c]) ([] : Str) s2).map (lev acc))
        acc.length =
      (List.scanl (fun a c => a ++ [c]) ([] : Str) s2).map
        (lev (acc ++ rest)) := by
  intro rest
  induction rest with
  | nil => intro acc; simp [dpLoop]
  | cons c1 r ih =>
    intro acc
    rw [dpLoop]
    have hlast : acc.length + 1 = lev (acc ++ [c1]) [] := by
      rw [lev_nil_right]; simp
    rw [hlast, rowAux_spec c1 acc s2 []]
    have hrow : lev (acc ++ [c1]) [] ::
        ((List.scanl (fun a c => a ++ [c]) ([] : Str) s2).tail).map
          (lev (acc ++ [c1])) =
        (List.scanl (fun a c => a ++ [c]) ([] : Str) s2).map
          (lev (acc ++ [c1])) := by
      rw [scanl_eq_cons (fun a c => a ++ [c]) ([] : Str) s2, List.map_cons]
      rw [← scanl_eq_cons (fun a c => a ++ [c]) ([] : Str) s2]
    rw [hrow]
    have hc : lev (acc ++ [c1]) [] = (acc ++ [c1]).length := by
      rw [lev_nil_right]
    rw [hc, ih (acc ++ [c1])]
    simp

/-- Row of lengths of the iterated-append scanl. -/
theorem scanl_lengths :
    ∀ (rest done : Str),
      (List.scanl (fun a c => a ++ [c]) done rest).map List.length =
        List.range' done.length (rest.length + 1) := by
  intro rest
  induction rest with
  | nil => intro done; simp [List.range']
  | cons c cs ih =>
    intro done
    rw [List.scanl_cons, List.singleton_append, List.map_cons,
      ih (done ++ [c])]
    have h1 : (done ++ [c]).length = done.length + 1 := by simp
    rw [h1]
    simp [List.range']

/-- The initial DP row is the row of distances from the empty string. -/
theorem map_lev_nil_scanl (s2 : Str) :
    (List.scanl (fun a c => a ++ [c]) ([] : Str) s2).map (lev []) =
      List.range (s2.length + 1) := by
  have h1 : (List.scanl (fun a c => a ++ [c]) ([] : Str) s2).map (lev []) =
      (List.scanl (fun a c => a ++ [c]) ([] : Str) s2).map List.length :=
    List.map_congr_left (fun p _ => lev_nil_left p)
  rw [h1, scanl_lengths s2 [], List.range_eq_range']
  rfl

/-- The last entry of a mapped scanl row. -/
theorem getLastD_map_scanl (f : Str → Nat) :
    ∀ (rest done : Str) (d : Nat),
      ((List.scanl (fun a c => a ++ [c]) done rest).map f).getLastD d =
        f (done ++ rest) := by
  intro rest
  induction rest with
  | nil => intro done d; simp
  | cons c cs ih =>
    intro done d
    rw [List.scanl_cons, List.singleton_append, List.map_cons,
      List.getLastD_cons, ih (done ++ [c])]
    simp

/-- The dynamic-program body computes the recursive Levenshtein distance. -/
theorem edAux_eq_lev (s1 s2 : Str) : edAux s1 s2 = lev s1 s2 := by
  rw [edAux]
  split_ifs with h
  · rw [List.length_eq_zero.mp h, lev_nil_right]
  · rw [← map_lev_nil_scanl s2]
    have hspec := dpLoop_spec s2 s1 []
    simp only [List.length_nil, List.nil_append] at hspec
    rw [hspec, getLastD_map_scanl (lev s1) s2 []]
    rfl

/-- edit_distance computes the recursive Levenshtein distance. -/
theorem edit_distance_eq_lev (s1 s2 : Str) :
    edit_distance s1 s2 = lev s1 s2 := by
  rw [edit_distance]
  split_ifs with h
  · rw [edAux_eq_lev, lev_symm]
  · exact edAux_eq_lev s1 s2

/-- The Levenshtein distance from a string to itself is zero. -/
theorem lev_self (a : Str) : lev a a = 0 := by
  induction a with
  | nil => simp [lev]
  | cons x xs ih =>
    have h := lev_le_keep x xs xs
    omega

/-- A zero Levenshtein distance forces equality. -/
theorem lev_eq_zero : ∀ {a b : Str}, lev a b = 0 → a = b := by
  intro a
  induction a with
  | nil =>
    intro b h
    rw [lev_nil_left] at h
    exact (List.length_eq_zero.mp h).symm
  | cons x xs ih =>
    intro b h
    cases b with
    | nil => rw [lev_nil_right] at h; simp at h
    | cons y ys =>
      rw [lev_cons_cons] at h
      rcases Nat.min_eq_zero_iff.mp h with h1 | h1
      · omega
      · rcases Nat.min_eq_zero_iff.mp h1 with h2 | h2
        · omega
        · by_cases hxy : x = y
          · rw [if_pos hxy, Nat.add_zero] at h2
            rw [hxy, ih h2]
          · rw [if_neg hxy] at h2
            omega

/-- Composition of alignments: an alignment of a with b and one of b with
c combine into an alignment of a with c of at most the summed cost. -/
theorem aligns_trans :
    ∀ (N : Nat) (a b c : Str) (m n : Nat),
      a.length + b.length + c.length ≤ N →
      Aligns a b m → Aligns b c n → ∃ k, k ≤ m + n ∧ Aligns a c k := by
  intro N
  induction N with
  | zero =>
    intro a b c m n hlen h1 h2
    cases a with
    | cons x xs => simp at hlen
    | nil =>
      cases c with
      | cons z cs => simp at hlen
      | nil => exact ⟨0, Nat.zero_le _, Aligns.nil⟩
  | succ N ih =>
    intro a b c m n hlen h1 h2
    cases h1 with
    | nil => exact ⟨n, by omega, h2⟩
    | keep x h1' =>
      cases h2 with
      | keep z h2' =>
        obtain ⟨k, hk, hA⟩ := ih _ _ _ _ _ (by simp only [List.length_cons] at *; omega) h1' h2'
        exact ⟨k, by omega, Aligns.keep x hA⟩
      | subst z w h2' =>
        obtain ⟨k, hk, hA⟩ := ih _ _ _ _ _ (by simp only [List.length_cons] at *; omega) h1' h2'
        exact ⟨k + 1, by omega, Aligns.subst x w hA⟩
      | del z h2' =>
        obtain ⟨k, hk, hA⟩ := ih _ _ _ _ _ (by simp only [List.length_cons] at *; omega) h1' h2'
        exact ⟨k + 1, by omega, Aligns.del x hA⟩
      | ins w h2' =>
        obtain ⟨k, hk, hA⟩ := ih _ _ _ _ _ (by simp only [List.length_cons] at *; omega) (Aligns.keep x h1') h2'
        exact ⟨k + 1, by omega, Aligns.ins w hA⟩
    | subst x y h1' =>
      cases h2 with
      | keep z h2' =>
        obtain ⟨k, hk, hA⟩ := ih _ _ _ _ _ (by simp only [List.length_cons] at *; omega) h1' h2'
        exact ⟨k + 1, by omega, Aligns.subst x y hA⟩
      | subst z w h2' =>
        obtain ⟨k, hk, hA⟩ := ih _ _ _ _ _ (by simp only [List.length_cons] at *; omega) h1' h2'
        exact ⟨k + 1, by omega, Aligns.subst x w hA⟩
      | del z h2' =>
        obtain ⟨k, hk, hA⟩ := ih _ _ _ _ _ (by simp only [List.length_cons] at *; omega) h1' h2'
        exact ⟨k + 1, by omega, Aligns.del x hA⟩
      | ins w h2' =>
        obtain ⟨k, hk, hA⟩ := ih _ _ _ _ _ (by simp only [List.length_cons] at *; omega) (Aligns.subst x y h1') h2'
        exact ⟨k + 1, by omega, Aligns.ins w hA⟩
    | del x h1' =>
      obtain ⟨k, hk, hA⟩ := ih _ _ _ _ _ (by simp only [List.length_cons] at *; omega) h1' h2
      exact ⟨k + 1, by omega, Aligns.del x hA⟩
    | ins y h1' =>
      cases h2 with
      | keep z h2' =>
        obtain ⟨k, hk, hA⟩ := ih _ _ _ _ _ (by simp only [List.length_cons] at *; omega) h1' h2'
        exact ⟨k + 1, by omega, Aligns.ins y hA⟩
      | subst z w h2' =>
        obtain ⟨k, hk, hA⟩ := ih _ _ _ _ _ (by simp only [List.length_cons] at *; omega) h1' h2'
        exact ⟨k + 1, by omega, Aligns.ins w hA⟩
      | del z h2' =>
        obtain ⟨k, hk, hA⟩ := ih _ _ _ _ _ (by simp only [List.length_cons] at *; omega) h1' h2'
        exact ⟨k, by omega, hA⟩
      | ins w h2' =>
        obtain ⟨k, hk, hA⟩ := ih _ _ _ _ _ (by simp only [List.length_cons] at *; omega) (Aligns.ins y h1') h2'
        exact ⟨k + 1, by omega, Aligns.ins w hA⟩

/-- The triangle inequality for the recursive Levenshtein distance. -/
theorem lev_triangle (a b c : Str) : lev a c ≤ lev a b + lev b c := by
  obtain ⟨k, hk, hA⟩ := aligns_trans
    (a.length + b.length + c.length) a b c (lev a b) (lev b c)
    (Nat.le_refl _)
    (aligns_lev (a.length + b.length) a b (Nat.le_refl _))
    (aligns_lev (b.length + c.length) b c (Nat.le_refl _))
  exact le_trans (lev_le_of_aligns hA) hk

/-- Claim C3: edit_distance is a metric — it vanishes exactly on equal
strings, it is symmetric, and it satisfies the triangle inequality. -/
theorem claim3_edit_distance_metric (a b c : Str) :
    (edit_distance a b = 0 ↔ a = b) ∧
      edit_distance a b = edit_distance b a ∧
      edit_distance a c ≤ edit_distance a b + edit_distance b c := by
  simp only [edit_distance_eq_lev]
  exact ⟨⟨fun h => lev_eq_zero h, fun h => h ▸ lev_self b⟩,
    lev_symm a b, lev_triangle a b c⟩

end Nyrakai
